import Mathlib

/-!
# Verification of the rag-text-search retrieval pipeline

A shallow embedding, in Lean 4, of the retrieval pipeline of a small
RAG text-search program written in Go: sentence chunking, TF-IDF
embedding, an in-memory vector store with brute-force similarity
search, the lexical Ochiai fallback ranker, and the remote embedder
retry policy.  Go `float64` values are modelled as rationals (`ℚ`);
the two transcendental library functions used by the program
(`math.Log`, `math.Sqrt`) are passed in as function parameters with
the properties each theorem needs stated as hypotheses, while the
program's own 6-iteration Newton square root is translated literally.
Go loops are modelled with explicit fuel; `none` means the loop did
not finish within the given fuel.
-/

namespace RagSearch

/-- `domain.Document` from the source: one ingested text file. -/
structure Document where
  id : String
  path : String
  content : String
deriving DecidableEq, Repr

/-- `domain.Chunk` from the source: an indexable group of sentences. -/
structure Chunk where
  documentId : String
  chunkId : String
  text : String
  index : ℕ
deriving DecidableEq, Repr, Inhabited

/-- `domain.SearchResult` from the source, with the score as `ℚ`. -/
structure SearchResult where
  chunk : Chunk
  score : ℚ
deriving DecidableEq, Repr, Inhabited

/-! ## String helpers (`strings.TrimSpace`, `strings.Join`) -/

/-- Model of `strings.TrimSpace` on the character list. -/
def trimChars (cs : List Char) : List Char :=
  ((cs.dropWhile Char.isWhitespace).reverse.dropWhile Char.isWhitespace).reverse

/-- Model of `strings.TrimSpace`. -/
def trimSpace (s : String) : String := String.mk (trimChars s.data)

/-- Model of `strings.Join(parts, " ")`. -/
def joinSpace (parts : List String) : String := String.intercalate " " parts

/-! ## Sentence splitting

The chunker splits on the regular expression `(?m)(?U)([^.!?]+[.!?])`:
each match is a maximal run of at least one non-terminator character
followed by one sentence terminator (`.`, `!` or `?`).  Text after the
last terminator is not matched and is dropped. -/

/-- Is `c` a sentence terminator? -/
def isTerm (c : Char) : Bool := c = '.' || c = '!' || c = '?'

/-- Scanner equivalent to `FindAllString` of the sentence regex: `acc`
holds the pending non-terminator characters in reverse. -/
def splitLoop : List Char → List Char → List (List Char)
  | [], _ => []
  | c :: rest, acc =>
    if isTerm c then
      if acc.isEmpty then splitLoop rest []
      else (acc.reverse ++ [c]) :: splitLoop rest []
    else splitLoop rest (c :: acc)

/-- All sentence matches of the splitter regex in `s`. -/
def splitSentences (s : String) : List String :=
  (splitLoop s.data []).map (fun cs => String.mk cs)

/-- Lines 33-44 of `sentence_chunker.go`: the sentence list the chunk
loop runs on - regex matches, or the trimmed content as a single
sentence when there is no match, or nothing when the content is blank;
every sentence is trimmed. -/
def sentencesOf (content : String) : List String :=
  let sents := splitSentences content
  let sents :=
    if sents.isEmpty then
      if trimSpace content = "" then [] else [trimSpace content]
    else sents
  sents.map trimSpace

/-! ## The chunk loop (`SentenceChunker.Chunk`) -/

/-- The chunk record built at start position `a`, end position `b`
(exclusive), running index `idx` - the body of the loop in lines 49-59
of `sentence_chunker.go`; `sents[a:b]` is `drop a` then `take (b-a)`. -/
def spanChunk (doc : Document) (sents : List String) (a b idx : ℕ) : Chunk :=
  { documentId := doc.id
    chunkId := doc.id ++ ":" ++ toString idx
    text := joinSpace ((sents.drop a).take (b - a))
    index := idx }

/-- Lines 48-69 of `sentence_chunker.go`, with explicit fuel: from
start `i`, compute `e = min (i+S) N`, emit the chunk, stop if `e = N`,
otherwise continue from `e - O` (truncated subtraction models the
`if i < 0` clamp).  `none` means the loop did not terminate within
`fuel` iterations. -/
def chunkLoopF (doc : Document) (S O : ℕ) (sents : List String) :
    ℕ → ℕ → ℕ → Option (List Chunk)
  | 0, _, _ => none
  | fuel + 1, i, idx =>
    if i < sents.length then
      let e := min (i + S) sents.length
      let c := spanChunk doc sents i e idx
      if e = sents.length then some [c]
      else (chunkLoopF doc S O sents fuel (e - O) (idx + 1)).map (c :: ·)
    else some []

/-- `SentenceChunker.Chunk` (the error result is always `nil` in the
source, so the value is just the chunk list), with explicit fuel for
the loop. -/
def ChunkF (S O : ℕ) (doc : Document) (fuel : ℕ) : Option (List Chunk) :=
  let sents := sentencesOf doc.content
  if sents.isEmpty then some [] else chunkLoopF doc S O sents fuel 0 0

/-- `NewSentenceChunker`: the configured sizes after coercion
(`sentencesPerChunk ≤ 0` becomes 5, negative overlap becomes 0). -/
def newSentenceChunker (S O : ℤ) : ℕ × ℕ :=
  ((if S ≤ 0 then (5 : ℤ) else S).toNat, (if O < 0 then (0 : ℤ) else O).toNat)

example : sentencesOf "A. B. C." = ["A.", "B.", "C."] := by decide
example : newSentenceChunker 2 2 = (2, 2) := by decide

/-! ## C1: the chunk loop stalls when the overlap reaches the chunk size

With `sentencesPerChunk = 2`, `overlapSentences = 2` (both accepted by
`NewSentenceChunker`) and three sentences, the loop computes
`end = 2 ≠ 3` and the next start `end - overlap = 0`: the start
position never advances, so no amount of fuel finishes the loop. -/

theorem chunkLoop_stall (doc : Document) :
    ∀ fuel idx, chunkLoopF doc 2 2 ["A.", "B.", "C."] fuel 0 idx = none := by
  intro fuel
  induction fuel with
  | zero => intro idx; rfl
  | succ n ih =>
    intro idx
    simpa [chunkLoopF] using ih (idx + 1)

/-! ## C4: characterization of the chunk loop when overlap < size

`S = O + D` with `D > 0`; from start `i < N` the loop terminates with
`(N - i - O - 1) / D + 1` chunks, chunk `k` covering sentences
`[i + k*D, min (i + k*D + S) N)`, and the last chunk ending at `N`. -/

theorem chunkLoop_char (doc : Document) (O D : ℕ) (hD : 0 < D)
    (sents : List String) :
    ∀ fuel i idx, i < sents.length → sents.length - i ≤ fuel →
      ∃ cs, chunkLoopF doc (O + D) O sents fuel i idx = some cs ∧
        cs.length = (sents.length - i - O - 1) / D + 1 ∧
        (∀ k, k < cs.length → cs.getD k default =
          spanChunk doc sents (i + k * D)
            (min (i + k * D + (O + D)) sents.length) (idx + k)) ∧
        min (i + (cs.length - 1) * D + (O + D)) sents.length
          = sents.length := by
  intro fuel
  induction fuel with
  | zero => intro i idx hi hfuel; omega
  | succ fuel ih =>
    intro i idx hi hfuel
    by_cases he : min (i + (O + D)) sents.length = sents.length
    · have hNS : sents.length ≤ i + (O + D) := min_eq_right_iff.mp he
      refine ⟨[spanChunk doc sents i (min (i + (O + D)) sents.length) idx],
        ?_, ?_, ?_, ?_⟩
      · simp only [chunkLoopF, if_pos hi, if_pos he]
      · have hz : (sents.length - i - O - 1) / D = 0 :=
          Nat.div_eq_of_lt (by omega)
        simp [hz]
      · intro k hk
        have hk0 : k = 0 := by simp at hk; omega
        subst hk0
        simp
      · simpa using he
    · have h2 : i + (O + D) < sents.length := by
        rcases lt_or_ge (i + (O + D)) sents.length with h | h
        · exact h
        · exact absurd (min_eq_right h) he
      have hmin : min (i + (O + D)) sents.length = i + (O + D) :=
        min_eq_left (le_of_lt h2)
      have hi' : i + D < sents.length := by omega
      have hfuel' : sents.length - (i + D) ≤ fuel := by omega
      obtain ⟨cs, hrun, hlen, hchar, hlast⟩ := ih (i + D) (idx + 1) hi' hfuel'
      have harg : min (i + (O + D)) sents.length - O = i + D := by omega
      refine ⟨spanChunk doc sents i (min (i + (O + D)) sents.length) idx :: cs,
        ?_, ?_, ?_, ?_⟩
      · simp only [chunkLoopF, if_pos hi, if_neg he, harg, hrun]
        rfl
      · have key : sents.length - i - O - 1
            = (sents.length - (i + D) - O - 1) + D := by omega
        simp only [List.length_cons, hlen, key, Nat.add_div_right _ hD]
      · intro k hk
        match k with
        | 0 => simp
        | n + 1 =>
          have hn : n < cs.length := by
            simpa using Nat.lt_of_succ_lt_succ hk
          have := hchar n hn
          have ha : i + D + n * D = i + (n + 1) * D := by ring
          have hb : idx + 1 + n = idx + (n + 1) := by ring
          simpa [ha, hb] using this
      · simp only [List.length_cons, Nat.add_sub_cancel]
        rw [hlen] at hlast ⊢
        simp only [Nat.add_sub_cancel] at hlast
        have hq : i + ((sents.length - (i + D) - O - 1) / D + 1) * D
            = i + D + (sents.length - (i + D) - O - 1) / D * D := by ring
        rw [hq]
        exact hlast

/-- Two lists are equal when they have the same length and agree on
`getD` at every position. -/
theorem list_eq_of_length_getD {α : Type} (d : α) :
    ∀ (a b : List α), a.length = b.length →
      (∀ k, k < a.length → a.getD k d = b.getD k d) → a = b := by
  intro a b hlen hk
  apply List.ext_getElem hlen
  intro i h1 h2
  have h := hk i h1
  rwa [List.getD_eq_getElem a d h1, List.getD_eq_getElem b d h2] at h

/-- The loop count `(N - O - 1) / D + 1` is the ceiling formula
`max 1 ⌈(N - O) / D⌉` of the specification. -/
theorem count_eq_ceil (N O D : ℕ) (hD : 0 < D) :
    (N - O - 1) / D + 1 = max 1 ((N - O + D - 1) / D) := by
  rcases Nat.eq_zero_or_pos (N - O) with h | h
  · rw [h]
    have h1 : (0 : ℕ) - 1 = 0 := rfl
    have h2 : 0 + D - 1 = D - 1 := by omega
    rw [h1, h2, Nat.div_eq_of_lt (by omega), Nat.div_eq_of_lt (by omega)]
    omega
  · have h1 : N - O + D - 1 = (N - O - 1) + D := by omega
    rw [h1, Nat.add_div_right _ hD,
      Nat.max_eq_right (Nat.le_add_left 1 ((N - O - 1) / D))]

/-- C1 (the code side of the claim): `Chunk` does NOT terminate for
every configuration.  With `sentencesPerChunk = 2` and
`overlapSentences = 2` - accepted unchanged by `NewSentenceChunker` -
and a three-sentence document, the loop start stays at 0 forever, so
the loop never finishes for any amount of fuel.  The claimed guard
(minimum advance of 1) does not exist in the code. -/
theorem chunker_c1_overlap_stalls_loop :
    ∀ fuel, ChunkF 2 2 ⟨"d", "p", "A. B. C."⟩ fuel = none := by
  intro fuel
  have hs : sentencesOf "A. B. C." = ["A.", "B.", "C."] := by decide
  simp [ChunkF, hs, chunkLoop_stall]

/-- C4: for a document with `N ≥ 1` sentences and `0 ≤ O < S`, the
chunker terminates (any fuel `≥ N` suffices and all give the same
list) and: the chunk count is `max 1 ⌈(N - O) / (S - O)⌉`; chunk
indexes are consecutive from 0; chunk `k` is exactly the sentences
`[k(S-O), min (k(S-O) + S) N)`, so no chunk exceeds `S` sentences;
every pair of consecutive chunks shares exactly `O` sentences (the
final pair included, which is stronger than the claim); and the last
chunk ends at `N`, absorbing the remainder. -/
theorem chunker_c4_shape (S O : ℕ) (doc : Document) (hOS : O < S)
    (hne : sentencesOf doc.content ≠ []) :
    ∃ cs : List Chunk,
      (∀ fuel, (sentencesOf doc.content).length ≤ fuel →
        ChunkF S O doc fuel = some cs) ∧
      cs.length
        = max 1 (((sentencesOf doc.content).length - O + (S - O) - 1) / (S - O)) ∧
      (∀ k, k < cs.length → (cs.getD k default).index = k) ∧
      (∀ k, k < cs.length → cs.getD k default =
        spanChunk doc (sentencesOf doc.content) (k * (S - O))
          (min (k * (S - O) + S) (sentencesOf doc.content).length) k) ∧
      (∀ k, k < cs.length →
        min (k * (S - O) + S) (sentencesOf doc.content).length
          - k * (S - O) ≤ S) ∧
      (∀ k, k + 1 < cs.length →
        min (k * (S - O) + S) (sentencesOf doc.content).length
          - (k + 1) * (S - O) = O) ∧
      min ((cs.length - 1) * (S - O) + S) (sentencesOf doc.content).length
        = (sentencesOf doc.content).length := by
  set sents := sentencesOf doc.content with hsents
  set D := S - O with hDdef
  have hD : 0 < D := by omega
  have hS : S = O + D := by omega
  have hN : 0 < sents.length := List.length_pos.mpr hne
  obtain ⟨cs, hrun, hlen, hchar, hlast⟩ :=
    chunkLoop_char doc O D hD sents sents.length 0 0 hN (by omega)
  have hchar0 : ∀ k, k < cs.length → cs.getD k default =
      spanChunk doc sents (k * D) (min (k * D + S) sents.length) k := by
    intro k hk
    have h := hchar k hk
    simpa [hS] using h
  refine ⟨cs, ?_, ?_, ?_, hchar0, ?_, ?_, ?_⟩
  · intro fuel hfuel
    obtain ⟨cs2, hrun2, hlen2, hchar2, _⟩ :=
      chunkLoop_char doc O D hD sents fuel 0 0 hN (by omega)
    have heq : cs2 = cs := by
      apply list_eq_of_length_getD default
      · rw [hlen2, hlen]
      · intro k hk
        have hk2 : k < cs.length := by rw [hlen, ← hlen2]; exact hk
        rw [hchar2 k hk, hchar k hk2]
    have hemp : ¬ sents.isEmpty := by
      simp [List.isEmpty_iff]
      exact hne
    rw [ChunkF, ← hsents, if_neg hemp, hS, hrun2, heq]
  · rw [hlen]
    have h0 : sents.length - 0 - O - 1 = sents.length - O - 1 := by omega
    rw [h0]
    exact count_eq_ceil sents.length O D hD
  · intro k hk
    rw [hchar0 k hk]
    rfl
  · intro k hk
    have h := min_le_left (k * D + S) sents.length
    omega
  · intro k hk
    have hq : k + 1 ≤ (sents.length - 0 - O - 1) / D := by
      rw [hlen] at hk
      omega
    have hql : ((sents.length - 0 - O - 1) / D) * D ≤ sents.length - 0 - O - 1 :=
      Nat.div_mul_le_self _ _
    have hmul : (k + 1) * D ≤ ((sents.length - 0 - O - 1) / D) * D :=
      Nat.mul_le_mul_right D hq
    have hstep : (k + 1) * D = k * D + D := by ring
    have hlt : k * D + S < sents.length := by omega
    rw [min_eq_left (le_of_lt hlt)]
    omega
  · have h := hlast
    simpa [hS] using h

/-- Witness for C4 at `S = 2`, `O = 1` on a three-sentence document. -/
theorem chunker_c4_shape_witness :
    1 < 2 ∧ sentencesOf (Document.mk "d" "p" "A. B. C.").content ≠ [] ∧
    (∃ cs : List Chunk,
      (∀ fuel,
          (sentencesOf (Document.mk "d" "p" "A. B. C.").content).length ≤ fuel →
        ChunkF 2 1 (Document.mk "d" "p" "A. B. C.") fuel = some cs) ∧
      cs.length
        = max 1 (((sentencesOf (Document.mk "d" "p" "A. B. C.").content).length
            - 1 + (2 - 1) - 1) / (2 - 1)) ∧
      (∀ k, k < cs.length → (cs.getD k default).index = k) ∧
      (∀ k, k < cs.length → cs.getD k default =
        spanChunk (Document.mk "d" "p" "A. B. C.")
          (sentencesOf (Document.mk "d" "p" "A. B. C.").content) (k * (2 - 1))
          (min (k * (2 - 1) + 2)
            (sentencesOf (Document.mk "d" "p" "A. B. C.").content).length) k) ∧
      (∀ k, k < cs.length →
        min (k * (2 - 1) + 2)
            (sentencesOf (Document.mk "d" "p" "A. B. C.").content).length
          - k * (2 - 1) ≤ 2) ∧
      (∀ k, k + 1 < cs.length →
        min (k * (2 - 1) + 2)
            (sentencesOf (Document.mk "d" "p" "A. B. C.").content).length
          - (k + 1) * (2 - 1) = 1) ∧
      min ((cs.length - 1) * (2 - 1) + 2)
          (sentencesOf (Document.mk "d" "p" "A. B. C.").content).length
        = (sentencesOf (Document.mk "d" "p" "A. B. C.").content).length) :=
  ⟨by norm_num, by decide,
    chunker_c4_shape 2 1 (Document.mk "d" "p" "A. B. C.") (by norm_num) (by decide)⟩

/-! ## Word tokenization

The word regex (shared by the service, the TF-IDF embedder and the
summarizer) matches greedy maximal runs of letters that may continue
over a single apostrophe (ASCII or typographic) followed by more
letters.  Letters and lower-casing are modelled at the ASCII level
(`Char.isAlpha`, `Char.toLower`); the claims under verification do not
depend on non-ASCII case folding. -/

/-- One of the two apostrophe characters accepted inside a word. -/
def isApos (c : Char) : Bool := c = '\'' || c = '’'

/-- Greedy left-to-right scanner equivalent to `FindAllString` of the
word regex; `acc` holds the current partial word in reverse.  The fuel
is structural and one unit per consumed character; every step consumes
at least one character, so fuel equal to the character count is always
enough and the fuel-exhausted arm is unreachable from `tokenizeWords`. -/
def tokenScan : ℕ → List Char → List Char → List (List Char)
  | _, acc, [] => if acc.isEmpty then [] else [acc.reverse]
  | 0, acc, _ :: _ => if acc.isEmpty then [] else [acc.reverse]
  | fuel + 1, acc, c :: rest =>
    if c.isAlpha then tokenScan fuel (c :: acc) rest
    else if isApos c ∧ ¬ acc.isEmpty then
      match rest with
      | d :: rest2 =>
        if d.isAlpha then tokenScan fuel (d :: c :: acc) rest2
        else acc.reverse :: tokenScan fuel [] (d :: rest2)
      | [] => [acc.reverse]
    else
      if acc.isEmpty then tokenScan fuel [] rest
      else acc.reverse :: tokenScan fuel [] rest

/-- All word tokens of `s` after lower-casing (`strings.ToLower` then
`FindAllString` of the word regex). -/
def tokenizeWords (s : String) : List String :=
  let cs := s.data.map Char.toLower
  (tokenScan cs.length [] cs).map (fun w => String.mk w)

/-- `toTokenSet` from `rag_service.go`: the set of unique word tokens
(no stopword filtering in the service). -/
def tokenSetOf (s : String) : Finset String := (tokenizeWords s).toFinset

example : tokenizeWords "The cat, the DOG!" = ["the", "cat", "the", "dog"] := by
  decide
example : tokenizeWords "don't can''t cats'" = ["don't", "can", "t", "cats"] := by
  decide

/-! ## The service square root (6-iteration Newton) and Ochiai -/

/-- One Newton iteration `z = 0.5 * (z + x/z)` from `sqrt` in
`rag_service.go`. -/
def newtonStep (x z : ℚ) : ℚ := (z + x / z) / 2

/-- `sqrt` from `rag_service.go`: 0 for non-positive input, otherwise
six Newton iterations started at `z = x`. -/
def sqrtQ (x : ℚ) : ℚ := if x ≤ 0 then 0 else (newtonStep x)^[6] x

/-- `overlapOchiai` from `rag_service.go`: deduplicate the text's
tokens, count those present in the query set, and divide by the
product of the square roots of the two set sizes (0 when either side
is empty). -/
def overlapOchiai (qset : Finset String) (text : String) : ℚ :=
  let seen := (tokenizeWords text).dedup
  let inter := (seen.filter (fun t => decide (t ∈ qset))).length
  if qset.card = 0 ∨ seen.length = 0 then 0
  else (inter : ℚ) / (sqrtQ qset.card * sqrtQ seen.length)

/-- The same score as a function of the two token sets. -/
def ochiaiSets (A B : Finset String) : ℚ :=
  if A.card = 0 ∨ B.card = 0 then 0
  else ((A ∩ B).card : ℚ) / (sqrtQ A.card * sqrtQ B.card)

/-- `List.toFinset` ignores duplicate elements. -/
theorem dedup_toFinset_eq (l : List String) : l.dedup.toFinset = l.toFinset := by
  ext t
  simp

/-- `overlapOchiai` only depends on the text through its token set. -/
theorem overlapOchiai_eq_ochiaiSets (qset : Finset String) (text : String) :
    overlapOchiai qset text = ochiaiSets qset (tokenSetOf text) := by
  have hnd : (tokenizeWords text).dedup.Nodup := List.nodup_dedup _
  have hcard : (tokenSetOf text).card = (tokenizeWords text).dedup.length :=
    List.card_toFinset _
  have hinter : ((tokenizeWords text).dedup.filter
        (fun t => decide (t ∈ qset))).length
      = (qset ∩ tokenSetOf text).card := by
    rw [Finset.inter_comm]
    have h1 : ((tokenizeWords text).dedup.filter
          (fun t => decide (t ∈ qset))).toFinset.card
        = ((tokenizeWords text).dedup.filter
          (fun t => decide (t ∈ qset))).length :=
      List.toFinset_card_of_nodup (hnd.filter _)
    rw [← h1]
    congr 1
    rw [List.toFinset_filter]
    rw [dedup_toFinset_eq]
    have h3 : (tokenizeWords text).toFinset.filter
          (fun t => (decide (t ∈ qset) : Bool) = true)
        = (tokenizeWords text).toFinset.filter (fun t => t ∈ qset) := by
      congr 1
      funext t
      simp
    rw [tokenSetOf, h3]
    exact Finset.filter_mem_eq_inter
  rw [overlapOchiai, ochiaiSets, hinter, hcard]

/-- Newton iterates stay positive for positive input. -/
theorem iterate_newtonStep_pos (x : ℚ) (hx : 0 < x) :
    ∀ n z, 0 < z → 0 < (newtonStep x)^[n] z := by
  intro n
  induction n with
  | zero => intro z hz; simpa using hz
  | succ n ih =>
    intro z hz
    rw [Function.iterate_succ_apply]
    exact ih _ (by unfold newtonStep; positivity)

/-- The service square root of a positive number is positive. -/
theorem sqrtQ_pos (x : ℚ) (hx : 0 < x) : 0 < sqrtQ x := by
  rw [sqrtQ, if_neg (not_le.mpr hx)]
  exact iterate_newtonStep_pos x hx 6 x hx

/-- One Newton step starting from a positive point lands at or above
the true square root: `x ≤ (newtonStep x z)^2`. -/
theorem newtonStep_sq_ge (x z : ℚ) (hx : 0 < x) (hz : 0 < z) :
    x ≤ (newtonStep x z) ^ 2 := by
  have hzne : z ≠ 0 := ne_of_gt hz
  have key : (newtonStep x z) ^ 2 - x = ((z - x / z) / 2) ^ 2 := by
    rw [newtonStep]
    field_simp
    ring
  nlinarith [sq_nonneg ((z - x / z) / 2)]

/-- The service square root of a positive number is at or above the
true square root. -/
theorem sqrtQ_sq_ge (x : ℚ) (hx : 0 < x) : x ≤ (sqrtQ x) ^ 2 := by
  rw [sqrtQ, if_neg (not_le.mpr hx), show (6 : ℕ) = 5 + 1 from rfl,
    Function.iterate_succ_apply']
  exact newtonStep_sq_ge x _ hx (iterate_newtonStep_pos x hx 5 x hx)

/-- The Ochiai score is symmetric in the two sets. -/
theorem ochiaiSets_comm (A B : Finset String) :
    ochiaiSets A B = ochiaiSets B A := by
  by_cases h : A.card = 0 ∨ B.card = 0
  · rw [ochiaiSets, ochiaiSets, if_pos h, if_pos h.symm]
  · rw [ochiaiSets, ochiaiSets, if_neg h, if_neg (fun hc => h hc.symm),
      Finset.inter_comm, mul_comm]

/-- The Ochiai score lies in `[0, 1]`. -/
theorem ochiaiSets_mem_unit (A B : Finset String) :
    0 ≤ ochiaiSets A B ∧ ochiaiSets A B ≤ 1 := by
  by_cases h : A.card = 0 ∨ B.card = 0
  · rw [ochiaiSets, if_pos h]
    norm_num
  · push_neg at h
    have ha : (0 : ℚ) < A.card := by
      exact_mod_cast Nat.pos_of_ne_zero h.1
    have hb : (0 : ℚ) < B.card := by
      exact_mod_cast Nat.pos_of_ne_zero h.2
    have hsA : 0 < sqrtQ A.card := sqrtQ_pos _ ha
    have hsB : 0 < sqrtQ B.card := sqrtQ_pos _ hb
    have hprod : 0 < sqrtQ A.card * sqrtQ B.card := mul_pos hsA hsB
    have hin : (0 : ℚ) ≤ ((A ∩ B).card : ℚ) := Nat.cast_nonneg _
    have hiA : ((A ∩ B).card : ℚ) ≤ A.card := by
      exact_mod_cast Finset.card_le_card (Finset.inter_subset_left)
    have hiB : ((A ∩ B).card : ℚ) ≤ B.card := by
      exact_mod_cast Finset.card_le_card (Finset.inter_subset_right)
    have h1 : ((A ∩ B).card : ℚ) ^ 2 ≤ (A.card : ℚ) * B.card := by
      have := mul_le_mul hiA hiB hin ha.le
      nlinarith
    have h2 : (A.card : ℚ) * B.card ≤ (sqrtQ A.card * sqrtQ B.card) ^ 2 := by
      have hA2 := sqrtQ_sq_ge (A.card : ℚ) ha
      have hB2 := sqrtQ_sq_ge (B.card : ℚ) hb
      nlinarith
    have h3 : ((A ∩ B).card : ℚ) ≤ sqrtQ A.card * sqrtQ B.card := by
      nlinarith [le_trans h1 h2]
    rw [ochiaiSets, if_neg (by push_neg; exact h)]
    constructor
    · exact div_nonneg hin hprod.le
    · rw [div_le_one hprod]
      exact h3

/-- The Newton square root of 1 is exact. -/
theorem sqrtQ_one : sqrtQ 1 = 1 := by
  have hstep : newtonStep 1 1 = 1 := by rw [newtonStep]; norm_num
  rw [sqrtQ, if_neg (by norm_num)]
  exact Function.iterate_fixed hstep 6

/-- The score of a singleton set against itself is exactly 1 (the
Newton square root of 1 is exact). -/
theorem ochiaiSets_self_singleton (A : Finset String) (h : A.card = 1) :
    ochiaiSets A A = 1 := by
  rw [ochiaiSets, if_neg (by omega), Finset.inter_self, h]
  rw [Nat.cast_one, sqrtQ_one]
  norm_num

/-- No rational squares to 2. -/
theorem sq_ne_two (z : ℚ) : z ^ 2 ≠ 2 := by
  intro hz
  have hz2 : ((z : ℝ)) ^ 2 = 2 := by exact_mod_cast hz
  have h1 : Real.sqrt 2 = |(z : ℝ)| := by
    rw [← hz2, Real.sqrt_sq_eq_abs]
  have h2 := irrational_sqrt_two
  rw [h1] at h2
  exact h2 ⟨|z|, by push_cast; rfl⟩

/-- C5 (amended): the service Ochiai score is symmetric, lies in
`[0, 1]`, and equals 1 for identical token sets with exactly one
element (where the Newton square root is exact). -/
theorem service_ochiai_props (s t : String) :
    overlapOchiai (tokenSetOf s) t = overlapOchiai (tokenSetOf t) s ∧
    0 ≤ overlapOchiai (tokenSetOf s) t ∧
    overlapOchiai (tokenSetOf s) t ≤ 1 ∧
    ((tokenSetOf s).card = 1 → overlapOchiai (tokenSetOf s) s = 1) := by
  rw [overlapOchiai_eq_ochiaiSets, overlapOchiai_eq_ochiaiSets,
    overlapOchiai_eq_ochiaiSets]
  refine ⟨ochiaiSets_comm _ _, (ochiaiSets_mem_unit _ _).1,
    (ochiaiSets_mem_unit _ _).2, fun h => ochiaiSets_self_singleton _ h⟩

/-- Witness for C5 (amended) at concrete one-token texts. -/
theorem service_ochiai_props_witness :
    0 ≤ overlapOchiai (tokenSetOf "cat") "dog" ∧
    overlapOchiai (tokenSetOf "cat") "cat" = 1 :=
  ⟨(service_ochiai_props "cat" "dog").2.1,
    (service_ochiai_props "cat" "cat").2.2.2 (by decide)⟩

/-- C5 counterexample: for the identical, non-empty, two-element token
set of "cat dog", the service score is NOT 1, because the 6-iteration
Newton square root of 2 is not exact. -/
theorem service_ochiai_counterexample :
    (tokenSetOf "cat dog").card ≠ 0 ∧
    overlapOchiai (tokenSetOf "cat dog") "cat dog" ≠ 1 := by
  have hcard : (tokenSetOf "cat dog").card = 2 := by decide
  refine ⟨by omega, ?_⟩
  rw [overlapOchiai_eq_ochiaiSets, ochiaiSets, if_neg (by omega),
    Finset.inter_self, hcard]
  push_cast
  intro heq
  have hs : 0 < sqrtQ (2 : ℚ) := sqrtQ_pos _ (by norm_num)
  have hne : sqrtQ (2 : ℚ) * sqrtQ (2 : ℚ) ≠ 0 := by positivity
  rw [div_eq_one_iff_eq hne] at heq
  exact sq_ne_two (sqrtQ (2 : ℚ)) (by rw [sq]; exact heq.symm)

/-! ## The TF-IDF embedder

`math.Log` and `math.Sqrt` are passed in as `flog` and `fsqrt`; each
theorem states as hypotheses exactly the properties of these two
functions it relies on. -/

/-- The fixed stopword list (`defaultStopwords`). -/
def stopwords : List String :=
  ["a", "an", "the", "and", "or", "but", "if", "then", "else", "for",
   "to", "of", "in", "on", "at", "by", "with", "as", "is", "are",
   "was", "were", "be", "been", "being", "it", "this", "that",
   "these", "those", "from", "up", "down", "over", "under", "again",
   "further", "than", "so", "such", "into", "about", "between",
   "through", "during", "before", "after", "above", "below", "out",
   "off", "own", "same", "too", "very", "can", "will", "just", "don",
   "should", "now"]

/-- `tokenize` of the TF-IDF embedder: lower-cased word tokens with
stopwords removed. -/
def tokenize (s : String) : List String :=
  (tokenizeWords s).filter (fun t => !(stopwords.contains t))

/-- The prepared state of the TF-IDF embedder: the sorted vocabulary,
the IDF value per vocabulary index, and the dimension. -/
structure TFState where
  terms : List String
  idf : List ℚ
  dimension : ℕ
deriving DecidableEq, Repr

/-- Lexicographic comparison of character lists by code point.  UTF-8
byte order coincides with code-point order, so this is Go's `<` on
strings as used by `sort.Strings`. -/
def charListLe : List Char → List Char → Bool
  | [], _ => true
  | _ :: _, [] => false
  | a :: as, b :: bs =>
    if a < b then true
    else if b < a then false
    else charListLe as bs

/-- Go string comparison (byte order). -/
def strLe (a b : String) : Bool := charListLe a.data b.data

/-- Document frequency of `t`: in how many per-document token sets it
appears. -/
def dfCount (docTokens : List (List String)) (t : String) : ℕ :=
  (docTokens.filter (fun seen => seen.contains t)).length

/-- The smoothed IDF `ln((1 + N) / (1 + df)) + 1`. -/
def idfOf (flog : ℚ → ℚ) (N df : ℕ) : ℚ :=
  flog ((1 + (N : ℚ)) / (1 + (df : ℚ))) + 1

/-- `TFIDFEmbedder.Prepare`: fails on an empty corpus or when no term
survives tokenization; otherwise builds the lexicographically sorted
vocabulary (the unique sorted arrangement `sort.Strings` produces on
the distinct keys) with one smoothed IDF value per term.  The body's
second stopword check is a no-op because `tokenize` already filters
stopwords. -/
def Prepare (flog : ℚ → ℚ) (corpus : List String) : Option TFState :=
  if corpus.isEmpty then none
  else
    let docTokens := corpus.map (fun text => (tokenize text).dedup)
    let terms := ((docTokens.foldr (· ++ ·) []).dedup).insertionSort
      (fun a b => strLe a b = true)
    if terms.isEmpty then none
    else some
      { terms := terms
        idf := terms.map (fun t => idfOf flog corpus.length (dfCount docTokens t))
        dimension := terms.length }

/-- Sum of squares (the `norm` accumulator before `math.Sqrt`). -/
def sumSq (v : List ℚ) : ℚ := (v.map (fun x => x * x)).sum

/-- The tokens of `text` that are in the vocabulary (the ones counted
into `tf` and `total`). -/
def embedInVocab (st : TFState) (text : String) : List String :=
  (tokenize text).filter (fun t => st.terms.contains t)

/-- The un-normalized TF-IDF vector: position `i` holds
`(count of term i / total) * idf[i]` (0 when the term does not occur,
exactly as the zero-initialized `vec` of the source). -/
def embedTF (st : TFState) (text : String) : List ℚ :=
  st.terms.zipWith
    (fun t w => ((embedInVocab st text).count t : ℚ)
      / ((embedInVocab st text).length : ℚ) * w) st.idf

/-- `TFIDFEmbedder.Embed` on a prepared state (the only error in the
source is the not-prepared check): the zero vector when no token is in
the vocabulary, otherwise the TF-IDF vector L2-normalized through
`fsqrt` when the computed norm is positive. -/
def Embed (fsqrt : ℚ → ℚ) (st : TFState) (text : String) : List ℚ :=
  if (embedInVocab st text).length = 0 then List.replicate st.dimension 0
  else if 0 < fsqrt (sumSq (embedTF st text)) then
    (embedTF st text).map (fun v => v / fsqrt (sumSq (embedTF st text)))
  else embedTF st text

/-- What a successful `Prepare` stores: the dimension is the
vocabulary size and each IDF entry is the smoothed IDF of its term. -/
theorem prepare_spec (flog : ℚ → ℚ) (corpus : List String) (st : TFState)
    (h : Prepare flog corpus = some st) :
    st.dimension = st.terms.length ∧
    st.idf = st.terms.map (fun t =>
      idfOf flog corpus.length
        (dfCount (corpus.map (fun text => (tokenize text).dedup)) t)) := by
  simp only [Prepare] at h
  split at h
  · simp at h
  · split at h
    · simp at h
    · injection h with h
      subst h
      exact ⟨rfl, rfl⟩

/-- The smoothed IDF is at least 1 when the log of a number `≥ 1` is
nonnegative and `df ≤ N`. -/
theorem idfOf_ge_one (flog : ℚ → ℚ) (hflog : ∀ x : ℚ, 1 ≤ x → 0 ≤ flog x)
    (N df : ℕ) (hdf : df ≤ N) : 1 ≤ idfOf flog N df := by
  rw [idfOf]
  have hpos : (0 : ℚ) < 1 + (df : ℚ) := by positivity
  have h1 : (1 : ℚ) ≤ (1 + (N : ℚ)) / (1 + (df : ℚ)) := by
    rw [one_le_div hpos]
    have : (df : ℚ) ≤ (N : ℚ) := by exact_mod_cast hdf
    linarith
  linarith [hflog _ h1]

/-- A document frequency never exceeds the corpus size. -/
theorem dfCount_le (docTokens : List (List String)) (t : String) :
    dfCount docTokens t ≤ docTokens.length :=
  List.length_filter_le _ _

/-- When some token of the text is in the vocabulary, the raw TF-IDF
vector has a strictly positive entry at that term's index. -/
theorem embedTF_entry_pos (flog : ℚ → ℚ)
    (hflog : ∀ x : ℚ, 1 ≤ x → 0 ≤ flog x)
    (corpus : List String) (st : TFState)
    (hprep : Prepare flog corpus = some st)
    (text : String) (t0 : String) (ht0 : t0 ∈ embedInVocab st text) :
    st.terms.indexOf t0 < (embedTF st text).length ∧
    0 < (embedTF st text).getD (st.terms.indexOf t0) 0 := by
  obtain ⟨hdim, hidf⟩ := prepare_spec flog corpus st hprep
  have hmem : t0 ∈ st.terms := by
    have h2 := ht0
    simp [embedInVocab] at h2
    exact h2.2
  have hpos : st.terms.indexOf t0 < st.terms.length :=
    List.indexOf_lt_length.mpr hmem
  have hlenidf : st.idf.length = st.terms.length := by rw [hidf]; simp
  have hlenTF : (embedTF st text).length = st.terms.length := by
    simp [embedTF, hlenidf]
  have hbound : st.terms.indexOf t0 < (embedTF st text).length := by
    rw [hlenTF]; exact hpos
  refine ⟨hbound, ?_⟩
  rw [List.getD_eq_getElem _ _ hbound]
  have hterm : st.terms[st.terms.indexOf t0] = t0 := List.getElem_indexOf hpos
  simp only [embedTF, List.getElem_zipWith, hidf, List.getElem_map, hterm]
  apply mul_pos
  · apply div_pos
    · exact_mod_cast List.count_pos_iff.mpr ht0
    · exact_mod_cast List.length_pos.mpr (List.ne_nil_of_mem ht0)
  · have hge := idfOf_ge_one flog hflog corpus.length
      (dfCount (corpus.map (fun text => (tokenize text).dedup)) t0)
      (by simpa using dfCount_le (corpus.map (fun text => (tokenize text).dedup)) t0)
    linarith

/-- C3: for a prepared TF-IDF embedder (`Prepare` succeeded) and any
query, `Embed` returns the all-zero vector of length `dimension` if
and only if no token of the query is in the prepared vocabulary.  The
hypothesis on `flog` is the property of `math.Log` the claim rests on:
logarithms of numbers `≥ 1` are nonnegative, so every stored IDF is
`≥ 1` and in-vocabulary tokens produce nonzero entries.  (The model's
`Embed` is total: the source only errors when the embedder is not
prepared, which `Prepare ... = some st` rules out.) -/
theorem tfidf_c3_zero_iff (flog fsqrt : ℚ → ℚ)
    (hflog : ∀ x : ℚ, 1 ≤ x → 0 ≤ flog x)
    (corpus : List String) (st : TFState)
    (hprep : Prepare flog corpus = some st) (text : String) :
    Embed fsqrt st text = List.replicate st.dimension 0 ↔
      ∀ t ∈ tokenize text, t ∉ st.terms := by
  have hiff0 : (embedInVocab st text).length = 0 ↔
      (∀ t ∈ tokenize text, t ∉ st.terms) := by
    rw [List.length_eq_zero, embedInVocab, List.filter_eq_nil_iff]
    simp
  by_cases h0 : (embedInVocab st text).length = 0
  · rw [Embed, if_pos h0]
    exact ⟨fun _ => hiff0.mp h0, fun _ => rfl⟩
  · have hrhs : ¬ (∀ t ∈ tokenize text, t ∉ st.terms) := fun hall =>
      h0 (hiff0.mpr hall)
    have hne : embedInVocab st text ≠ [] := by
      intro hnil
      exact h0 (by rw [hnil]; rfl)
    obtain ⟨t0, ht0⟩ := List.exists_mem_of_ne_nil _ hne
    obtain ⟨hbound, hentry⟩ :=
      embedTF_entry_pos flog hflog corpus st hprep text t0 ht0
    obtain ⟨hdim, hidf⟩ := prepare_spec flog corpus st hprep
    have hlenidf : st.idf.length = st.terms.length := by rw [hidf]; simp
    have hposdim : st.terms.indexOf t0 < st.dimension := by
      rw [hdim]
      have : (embedTF st text).length = st.terms.length := by
        simp [embedTF, hlenidf]
      rw [this] at hbound
      exact hbound
    have hlhs : Embed fsqrt st text ≠ List.replicate st.dimension 0 := by
      intro heq
      rw [Embed, if_neg h0] at heq
      by_cases hn : 0 < fsqrt (sumSq (embedTF st text))
      · rw [if_pos hn] at heq
        have hb2 : st.terms.indexOf t0 <
            ((embedTF st text).map
              (fun v => v / fsqrt (sumSq (embedTF st text)))).length := by
          simpa using hbound
        have hval := congrArg (fun l => l.getD (st.terms.indexOf t0) 0) heq
        simp only [] at hval
        rw [List.getD_eq_getElem _ _ hb2, List.getElem_map,
          List.getD_eq_getElem _ _ (by simpa using hposdim),
          List.getElem_replicate] at hval
        rw [List.getD_eq_getElem _ _ hbound] at hentry
        have := div_ne_zero (ne_of_gt hentry) (ne_of_gt hn)
        exact this hval
      · rw [if_neg hn] at heq
        have hval := congrArg (fun l => l.getD (st.terms.indexOf t0) 0) heq
        simp only [] at hval
        rw [List.getD_eq_getElem _ _ hbound,
          List.getD_eq_getElem _ _ (by simpa using hposdim),
          List.getElem_replicate] at hval
        rw [List.getD_eq_getElem _ _ hbound] at hentry
        rw [hval] at hentry
        exact lt_irrefl 0 hentry
    exact ⟨fun heq => absurd heq hlhs, fun hall => absurd hall hrhs⟩

/-- A concrete successful preparation over the corpus `["cat dog"]`
with the logarithm instantiated to the constant-zero function. -/
theorem tfidf_prepare_example :
    Prepare (fun _ : ℚ => 0) ["cat dog"]
      = some (TFState.mk ["cat", "dog"] [1, 1] 2) := by
  have hterms : (((["cat dog"].map
        (fun text => (tokenize text).dedup)).foldr (· ++ ·) []).dedup).insertionSort
        (fun a b => strLe a b = true) = ["cat", "dog"] := by decide
  simp only [Prepare, hterms]
  norm_num [idfOf]

/-- Witness for C3: the corpus `["cat dog"]` prepared with the
constant-zero logarithm, queried with the out-of-vocabulary text
"bird". -/
theorem tfidf_c3_zero_iff_witness :
    (∀ x : ℚ, 1 ≤ x → 0 ≤ (fun _ : ℚ => (0 : ℚ)) x) ∧
    Prepare (fun _ : ℚ => 0) ["cat dog"]
      = some (TFState.mk ["cat", "dog"] [1, 1] 2) ∧
    (Embed (fun x => x) (TFState.mk ["cat", "dog"] [1, 1] 2) "bird"
        = List.replicate (TFState.mk ["cat", "dog"] [1, 1] 2).dimension 0 ↔
      ∀ t ∈ tokenize "bird", t ∉ (TFState.mk ["cat", "dog"] [1, 1] 2).terms) :=
  ⟨fun _ _ => le_refl 0, tfidf_prepare_example,
    tfidf_c3_zero_iff (fun _ => 0) (fun x => x) (fun _ _ => le_refl 0)
      ["cat dog"] (TFState.mk ["cat", "dog"] [1, 1] 2)
      tfidf_prepare_example "bird"⟩

/-- A sum of squares is nonnegative. -/
theorem sumSq_nonneg (l : List ℚ) : 0 ≤ sumSq l := by
  apply List.sum_nonneg
  intro x hx
  obtain ⟨y, _, rfl⟩ := List.mem_map.mp hx
  exact mul_self_nonneg y

/-- Dividing every component by `c ≠ 0` divides the sum of squares by
`c^2`. -/
theorem sumSq_map_div (l : List ℚ) (c : ℚ) (hc : c ≠ 0) :
    sumSq (l.map (fun v => v / c)) = sumSq l / c ^ 2 := by
  induction l with
  | nil => simp [sumSq]
  | cons x l ih =>
    simp only [sumSq, List.map_cons, List.sum_cons] at ih ⊢
    rw [ih]
    field_simp
    ring

/-- C9: for a prepared TF-IDF embedder and any text, when `Embed`
returns a vector that is not all-zero, its squared L2 norm is 1 up to
the relative accuracy of the library square root: if `fsqrt` is
positive at the computed sum of squares `S` and
`|fsqrt S ^ 2 - S| ≤ ε S` with `ε < 1` (the floating tolerance), then
the embedded vector's sum of squares differs from 1 by at most
`ε / (1 - ε)`; with an exact square root (`ε = 0`) it is exactly 1. -/
theorem tfidf_c9_unit_norm (flog fsqrt : ℚ → ℚ) (corpus : List String)
    (st : TFState) (hprep : Prepare flog corpus = some st) (text : String)
    (ε : ℚ) (hε1 : ε < 1)
    (hnz : Embed fsqrt st text ≠ List.replicate st.dimension 0)
    (hpos : 0 < fsqrt (sumSq (embedTF st text)))
    (hacc : |fsqrt (sumSq (embedTF st text)) ^ 2 - sumSq (embedTF st text)|
      ≤ ε * sumSq (embedTF st text)) :
    |sumSq (Embed fsqrt st text) - 1| ≤ ε / (1 - ε) := by
  have hSnn : 0 ≤ sumSq (embedTF st text) := sumSq_nonneg _
  have hS0 : 0 < sumSq (embedTF st text) := by
    rcases eq_or_lt_of_le hSnn with h | h
    · exfalso
      rw [← h] at hacc hpos
      have h3 := hacc
      simp at h3
      have h2 : fsqrt 0 ^ 2 = 0 := le_antisymm h3 (sq_nonneg _)
      have h4 := pow_eq_zero_iff (n := 2) (by norm_num) |>.mp h2
      rw [h4] at hpos
      exact lt_irrefl 0 hpos
    · exact h
  have htot : ¬ (embedInVocab st text).length = 0 := by
    intro h0
    exact hnz (by rw [Embed, if_pos h0])
  rw [Embed, if_neg htot, if_pos hpos,
    sumSq_map_div _ _ (ne_of_gt hpos)]
  have hεnn : 0 ≤ ε := by
    by_contra hneg
    push_neg at hneg
    have h1 := abs_nonneg
      (fsqrt (sumSq (embedTF st text)) ^ 2 - sumSq (embedTF st text))
    nlinarith
  have h1e : 0 < 1 - ε := by linarith
  have hn2pos : 0 < fsqrt (sumSq (embedTF st text)) ^ 2 := by positivity
  have hn2 : (1 - ε) * sumSq (embedTF st text)
      ≤ fsqrt (sumSq (embedTF st text)) ^ 2 := by
    have := abs_le.mp hacc
    nlinarith [this.1]
  have heq1 : sumSq (embedTF st text) / fsqrt (sumSq (embedTF st text)) ^ 2 - 1
      = (sumSq (embedTF st text) - fsqrt (sumSq (embedTF st text)) ^ 2)
        / fsqrt (sumSq (embedTF st text)) ^ 2 := by
    field_simp
  rw [heq1, abs_div, abs_of_pos hn2pos]
  have habs : |sumSq (embedTF st text) - fsqrt (sumSq (embedTF st text)) ^ 2|
      ≤ ε * sumSq (embedTF st text) := by
    rw [abs_sub_comm]
    exact hacc
  rw [div_le_div_iff₀ hn2pos h1e]
  nlinarith [mul_le_mul_of_nonneg_left hn2 hεnn,
    mul_le_mul_of_nonneg_right habs (le_of_lt h1e)]

/-- Witness for C9: the corpus `["cat dog"]`, the text "cat", the
identity as square root and tolerance 0. -/
theorem tfidf_c9_unit_norm_witness :
    (0 : ℚ) < 1 ∧
    Embed (fun x => x) (TFState.mk ["cat", "dog"] [1, 1] 2) "cat"
      ≠ List.replicate (TFState.mk ["cat", "dog"] [1, 1] 2).dimension 0 ∧
    0 < (fun x : ℚ => x)
      (sumSq (embedTF (TFState.mk ["cat", "dog"] [1, 1] 2) "cat")) ∧
    |(fun x : ℚ => x)
        (sumSq (embedTF (TFState.mk ["cat", "dog"] [1, 1] 2) "cat")) ^ 2
      - sumSq (embedTF (TFState.mk ["cat", "dog"] [1, 1] 2) "cat")|
      ≤ 0 * sumSq (embedTF (TFState.mk ["cat", "dog"] [1, 1] 2) "cat") ∧
    |sumSq (Embed (fun x => x) (TFState.mk ["cat", "dog"] [1, 1] 2) "cat") - 1|
      ≤ 0 / (1 - 0) := by
  have hv : embedInVocab (TFState.mk ["cat", "dog"] [1, 1] 2) "cat"
      = ["cat"] := by decide
  have hc1 : (["cat"] : List String).count "cat" = 1 := by decide
  have hc2 : (["cat"] : List String).count "dog" = 0 := by decide
  have hTF : embedTF (TFState.mk ["cat", "dog"] [1, 1] 2) "cat" = [1, 0] := by
    simp [embedTF, hv, hc1, hc2]
  have hS : sumSq [(1 : ℚ), 0] = 1 := by norm_num [sumSq]
  have hpos : 0 < (fun x : ℚ => x)
      (sumSq (embedTF (TFState.mk ["cat", "dog"] [1, 1] 2) "cat")) := by
    rw [hTF, hS]
    norm_num
  have hembed : Embed (fun x => x) (TFState.mk ["cat", "dog"] [1, 1] 2) "cat"
      = [1, 0] := by
    rw [Embed, if_neg (by rw [hv]; norm_num), if_pos (by rw [hTF, hS]; norm_num),
      hTF, hS]
    norm_num
  have hnz : Embed (fun x => x) (TFState.mk ["cat", "dog"] [1, 1] 2) "cat"
      ≠ List.replicate (TFState.mk ["cat", "dog"] [1, 1] 2).dimension 0 := by
    rw [hembed]
    intro h
    have := congrArg (fun l => l.getD 0 0) h
    norm_num at this
  have hacc : |(fun x : ℚ => x)
        (sumSq (embedTF (TFState.mk ["cat", "dog"] [1, 1] 2) "cat")) ^ 2
      - sumSq (embedTF (TFState.mk ["cat", "dog"] [1, 1] 2) "cat")|
      ≤ 0 * sumSq (embedTF (TFState.mk ["cat", "dog"] [1, 1] 2) "cat") := by
    rw [hTF, hS]
    norm_num
  exact ⟨by norm_num, hnz, hpos, hacc,
    tfidf_c9_unit_norm (fun _ => 0) (fun x => x) ["cat dog"]
      (TFState.mk ["cat", "dog"] [1, 1] 2) tfidf_prepare_example "cat" 0
      (by norm_num) hnz hpos hacc⟩

/-! ## The in-memory vector store (`vectorstore/memory`)

State-mutating methods are modelled as functions returning the new
store and an optional error; an error leaves the store unchanged, as
the Go methods return before mutating.  The `idxs` slice of the sort
is modelled by its accessor function `ℕ → ℕ` and materialized back to
a list at the end. -/

/-- The in-memory `Storage` value (mutex elided: all calls are modelled
as atomic). -/
structure MemStore where
  dimension : ℕ
  vectors : List (List ℚ)
  chunks : List Chunk
deriving Repr

/-- `Storage.Init`: rejects non-positive dimensions without touching
the state, otherwise resets to an empty store of that dimension. -/
def MemStore.Init (s : MemStore) (d : ℤ) : MemStore × Option String :=
  if d ≤ 0 then (s, some "invalid dimension")
  else ({ dimension := d.toNat, vectors := [], chunks := [] }, none)

/-- `Storage.Upsert`: errors when the sequences differ in length or
some vector has the wrong dimension (all checked before any append),
otherwise appends both sequences in parallel. -/
def MemStore.Upsert (s : MemStore) (cs : List Chunk) (vs : List (List ℚ)) :
    MemStore × Option String :=
  if cs.length ≠ vs.length then (s, some "chunks and vectors length mismatch")
  else if vs.any (fun v => v.length ≠ s.dimension) then
    (s, some "vector dimension mismatch")
  else ({ s with chunks := s.chunks ++ cs, vectors := s.vectors ++ vs }, none)

/-- `Storage.Clear`: empties vectors and chunks, never fails. -/
def MemStore.Clear (s : MemStore) : MemStore × Option String :=
  ({ s with vectors := [], chunks := [] }, none)

/-- `dot`: sum of products over the common prefix (`n = min len`). -/
def dot (a b : List ℚ) : ℚ := (List.zipWith (· * ·) a b).sum

/-- C8: `Upsert` errors exactly when the sequences differ in length or
some vector's length differs from the stored dimension; on error the
store is unchanged, and on success both sequences are appended in
parallel, so the chunk at absolute index `old + i` corresponds to the
vector at absolute index `old + i` (and `Upsert` never changes the
relative order of what was already stored). -/
theorem memstore_c8_upsert (s : MemStore) (cs : List Chunk)
    (vs : List (List ℚ)) :
    ((MemStore.Upsert s cs vs).2.isSome ↔
      (cs.length ≠ vs.length ∨ ∃ v ∈ vs, v.length ≠ s.dimension)) ∧
    ((MemStore.Upsert s cs vs).2.isSome → (MemStore.Upsert s cs vs).1 = s) ∧
    ((MemStore.Upsert s cs vs).2 = none →
      (MemStore.Upsert s cs vs).1.chunks = s.chunks ++ cs ∧
      (MemStore.Upsert s cs vs).1.vectors = s.vectors ++ vs ∧
      (MemStore.Upsert s cs vs).1.dimension = s.dimension ∧
      ∀ i, i < cs.length →
        (MemStore.Upsert s cs vs).1.chunks.getD (s.chunks.length + i) default
          = cs.getD i default ∧
        (MemStore.Upsert s cs vs).1.vectors.getD (s.vectors.length + i) []
          = vs.getD i []) := by
  by_cases h1 : cs.length ≠ vs.length
  · rw [MemStore.Upsert, if_pos h1]
    refine ⟨⟨fun _ => Or.inl h1, fun _ => rfl⟩, fun _ => rfl, fun h => by simp at h⟩
  · by_cases h2 : vs.any (fun v => v.length ≠ s.dimension)
    · rw [MemStore.Upsert, if_neg h1, if_pos h2]
      have h3 : ∃ v ∈ vs, v.length ≠ s.dimension := by
        simpa using h2
      refine ⟨⟨fun _ => Or.inr h3, fun _ => rfl⟩, fun _ => rfl,
        fun h => by simp at h⟩
    · rw [MemStore.Upsert, if_neg h1, if_neg h2]
      have hany : vs.any (fun v => v.length ≠ s.dimension) = true ↔
          ∃ v ∈ vs, v.length ≠ s.dimension := by simp
      have h3 : ¬ (cs.length ≠ vs.length ∨ ∃ v ∈ vs, v.length ≠ s.dimension) := by
        rw [not_or]
        exact ⟨h1, by rw [← hany]; exact h2⟩
      refine ⟨⟨fun h => by simp at h, fun h => absurd h h3⟩, fun h => by simp at h,
        fun _ => ⟨rfl, rfl, rfl, ?_⟩⟩
      intro i hi
      constructor
      · rw [List.getD_eq_getElem _ _ (by simp; omega),
          List.getElem_append_right (by omega)]
        simp only [Nat.add_sub_cancel_left]
        rw [List.getD_eq_getElem _ _ hi]
      · have hlen : vs.length = cs.length := by omega
        rw [List.getD_eq_getElem _ _ (by simp; omega),
          List.getElem_append_right (by omega)]
        simp only [Nat.add_sub_cancel_left]
        rw [List.getD_eq_getElem _ _ (by omega)]

/-- Witness for C8 at a concrete store and input (the success case
with one appended pair). -/
theorem memstore_c8_upsert_witness :
    ((MemStore.Upsert (MemStore.mk 2 [[1, 0]] [Chunk.mk "d" "d:0" "a" 0])
        [Chunk.mk "d" "d:1" "b" 1] [[0, 1]]).2.isSome ↔
      (([Chunk.mk "d" "d:1" "b" 1] : List Chunk).length
          ≠ ([[0, 1]] : List (List ℚ)).length ∨
        ∃ v ∈ ([[(0 : ℚ), 1]] : List (List ℚ)), v.length
          ≠ (MemStore.mk 2 [[1, 0]] [Chunk.mk "d" "d:0" "a" 0]).dimension)) :=
  (memstore_c8_upsert (MemStore.mk 2 [[1, 0]] [Chunk.mk "d" "d:0" "a" 0])
    [Chunk.mk "d" "d:1" "b" 1] [[0, 1]]).1

/-! ### `argsortDesc` / `quicksort`

The Go code sorts the index slice `idxs` in place with a Hoare-style
partition quicksort (descending by `vals`).  The slice is modelled by
its accessor function `f : ℕ → ℕ`; loop indices are `ℤ` exactly as Go
`int`s (`j` can reach `lo - 1`).  The two inner scans are total
(structural fuel `vals.length + 1`, enough because a partition pivot
always stops them in range - proved below); the outer loop and the
recursion carry explicit fuel and return `none` on exhaustion, with
sufficiency proved below. -/

/-- Swap of two positions of the index accessor. -/
def fswap (f : ℕ → ℕ) (a b : ℕ) : ℕ → ℕ :=
  fun k => if k = a then f b else if k = b then f a else f k

/-- `vals[f k]` for an `int` position `k` (reads are proven in-bounds
wherever the lemmas below apply). -/
def vIdx (vals : List ℚ) (f : ℕ → ℕ) (k : ℤ) : ℚ :=
  vals.getD (f k.toNat) 0

/-- The left scan `for vals[idxs[i]] > pivot { i++ }`. -/
def scanI (vals : List ℚ) (pivot : ℚ) (f : ℕ → ℕ) : ℕ → ℤ → ℤ
  | 0, i => i
  | fuel + 1, i =>
    if pivot < vIdx vals f i then scanI vals pivot f fuel (i + 1) else i

/-- The right scan `for vals[idxs[j]] < pivot { j-- }`. -/
def scanJ (vals : List ℚ) (pivot : ℚ) (f : ℕ → ℕ) : ℕ → ℤ → ℤ
  | 0, j => j
  | fuel + 1, j =>
    if vIdx vals f j < pivot then scanJ vals pivot f fuel (j - 1) else j

/-- The partition loop `for i <= j { ... }` of `quicksort`, one unit
of fuel per iteration; the exit condition is checked before the fuel
so exhaustion can only be reported on a real iteration. -/
def partLoop (vals : List ℚ) (pivot : ℚ) :
    ℕ → (ℕ → ℕ) → ℤ → ℤ → Option ((ℕ → ℕ) × ℤ × ℤ)
  | 0, f, i, j => if i ≤ j then none else some (f, i, j)
  | fuel + 1, f, i, j =>
    if i ≤ j then
      let i2 := scanI vals pivot f (vals.length + 1) i
      let j2 := scanJ vals pivot f (vals.length + 1) j
      if i2 ≤ j2 then
        partLoop vals pivot fuel (fswap f i2.toNat j2.toNat) (i2 + 1) (j2 - 1)
      else some (f, i2, j2)
    else some (f, i, j)

/-- `quicksort(idxs, vals, lo, hi)` with fuel bounding the recursion
depth; the base case `lo >= hi` is checked before the fuel. -/
def quicksortF (vals : List ℚ) :
    ℕ → (ℕ → ℕ) → ℤ → ℤ → Option (ℕ → ℕ)
  | 0, f, lo, hi => if hi ≤ lo then some f else none
  | fuel + 1, f, lo, hi =>
    if hi ≤ lo then some f
    else
      match partLoop vals (vals.getD (f ((lo + hi) / 2).toNat) 0)
          ((hi - lo).toNat + 2) f lo hi with
      | none => none
      | some (f2, i2, j2) =>
        match (if lo < j2 then quicksortF vals fuel f2 lo j2 else some f2) with
        | none => none
        | some f3 =>
          if i2 < hi then quicksortF vals fuel f3 i2 hi else some f3

/-- `argsortDesc`: sort the identity index function over
`[0, vals.length)` and materialize it; the fallback list is never
reached (fuel sufficiency is proved below). -/
def argsortDesc (vals : List ℚ) : List ℕ :=
  match quicksortF vals vals.length (fun k => k) 0 ((vals.length : ℤ) - 1) with
  | some f => (List.range vals.length).map f
  | none => List.range vals.length

/-- The left scan stops at the first position at or below the pivot,
provided some such position exists within the fuel. -/
theorem scanI_spec (vals : List ℚ) (pivot : ℚ) (f : ℕ → ℕ) :
    ∀ (fuel : ℕ) (i : ℤ),
      (∃ k : ℤ, i ≤ k ∧ k < i + fuel ∧ vIdx vals f k ≤ pivot) →
      i ≤ scanI vals pivot f fuel i ∧
      vIdx vals f (scanI vals pivot f fuel i) ≤ pivot ∧
      (∀ k : ℤ, i ≤ k → k < scanI vals pivot f fuel i →
        pivot < vIdx vals f k) := by
  intro fuel
  induction fuel with
  | zero =>
    intro i h
    obtain ⟨k, hk1, hk2, _⟩ := h
    exact absurd hk2 (by omega)
  | succ fuel ih =>
    intro i h
    simp only [scanI]
    by_cases hc : pivot < vIdx vals f i
    · rw [if_pos hc]
      obtain ⟨k, hk1, hk2, hk3⟩ := h
      have hki : k ≠ i := fun he => absurd (he ▸ hk3) (not_le.mpr hc)
      obtain ⟨ha, hb, hcc⟩ := ih (i + 1) ⟨k, by omega, by omega, hk3⟩
      refine ⟨by omega, hb, ?_⟩
      intro k2 hk21 hk22
      rcases eq_or_lt_of_le hk21 with rfl | hgt
      · exact hc
      · exact hcc k2 (by omega) hk22
    · rw [if_neg hc]
      exact ⟨le_refl i, not_lt.mp hc, fun k h1 h2 => absurd h2 (by omega)⟩

/-- The right scan stops at the first position at or above the pivot,
provided some such position exists within the fuel. -/
theorem scanJ_spec (vals : List ℚ) (pivot : ℚ) (f : ℕ → ℕ) :
    ∀ (fuel : ℕ) (j : ℤ),
      (∃ k : ℤ, k ≤ j ∧ j - fuel < k ∧ pivot ≤ vIdx vals f k) →
      scanJ vals pivot f fuel j ≤ j ∧
      pivot ≤ vIdx vals f (scanJ vals pivot f fuel j) ∧
      (∀ k : ℤ, scanJ vals pivot f fuel j < k → k ≤ j →
        vIdx vals f k < pivot) := by
  intro fuel
  induction fuel with
  | zero =>
    intro j h
    obtain ⟨k, hk1, hk2, _⟩ := h
    exact absurd hk2 (by omega)
  | succ fuel ih =>
    intro j h
    simp only [scanJ]
    by_cases hc : vIdx vals f j < pivot
    · rw [if_pos hc]
      obtain ⟨k, hk1, hk2, hk3⟩ := h
      have hki : k ≠ j := fun he => absurd (he ▸ hk3) (not_le.mpr hc)
      obtain ⟨ha, hb, hcc⟩ := ih (j - 1) ⟨k, by omega, by omega, hk3⟩
      refine ⟨by omega, hb, ?_⟩
      intro k2 hk21 hk22
      rcases eq_or_lt_of_le hk22 with rfl | hgt
      · exact hc
      · exact hcc k2 hk21 (by omega)
    · rw [if_neg hc]
      exact ⟨le_refl j, not_lt.mp hc, fun k h1 h2 => absurd h1 (by omega)⟩

/-- `fswap` at the first position. -/
theorem fswap_left (f : ℕ → ℕ) (a b : ℕ) : fswap f a b a = f b := by
  simp [fswap]

/-- `fswap` at the second position. -/
theorem fswap_right (f : ℕ → ℕ) (a b : ℕ) : fswap f a b b = f a := by
  by_cases h : b = a
  · subst h; simp [fswap]
  · simp [fswap, h]

/-- `fswap` elsewhere. -/
theorem fswap_other (f : ℕ → ℕ) (a b k : ℕ) (h1 : k ≠ a) (h2 : k ≠ b) :
    fswap f a b k = f k := by
  simp [fswap, h1, h2]

/-- Correctness of the Hoare partition loop.  Under the loop
invariants (position bounds, the processed prefix `[lo, i)` at or
above the pivot, the processed suffix `(j, hi]` at or below it, and a
pivot-valued stopper on each side while `i ≤ j`), the loop terminates
within `(j - i) + 1` iterations at a state `(f2, i2, j2)` with
`j2 < i2`, both strictly inside `(lo - 1, hi + 1)`, the regions
`[lo, i2)` / `(j2, hi]` classified against the pivot, positions
outside `[lo, hi]` untouched, and the segment's values rearranged
(every old value still occurs, every new value is an old one). -/
theorem partLoop_spec (vals : List ℚ) (pivot : ℚ) (lo hi : ℤ)
    (hlo : 0 ≤ lo) (hhi : hi ≤ (vals.length : ℤ) - 1) :
    ∀ (fuel : ℕ) (f : ℕ → ℕ) (i j : ℤ),
      lo ≤ i → j ≤ hi → i ≤ hi + 1 → lo - 1 ≤ j →
      (lo < i ∨ i ≤ j) → (j < hi ∨ i ≤ j) →
      (∀ k : ℤ, lo ≤ k → k < i → pivot ≤ vIdx vals f k) →
      (∀ k : ℤ, j < k → k ≤ hi → vIdx vals f k ≤ pivot) →
      (i ≤ j → ∃ k : ℤ, i ≤ k ∧ k ≤ hi ∧ vIdx vals f k ≤ pivot) →
      (i ≤ j → ∃ k : ℤ, lo ≤ k ∧ k ≤ j ∧ pivot ≤ vIdx vals f k) →
      (i ≤ j → (j - i).toNat < fuel) →
      ∃ f2 i2 j2, partLoop vals pivot fuel f i j = some (f2, i2, j2) ∧
        j2 < i2 ∧ lo < i2 ∧ i2 ≤ hi + 1 ∧ lo - 1 ≤ j2 ∧ j2 < hi ∧
        (∀ k : ℤ, lo ≤ k → k < i2 → pivot ≤ vIdx vals f2 k) ∧
        (∀ k : ℤ, j2 < k → k ≤ hi → vIdx vals f2 k ≤ pivot) ∧
        (∀ k : ℕ, ((k : ℤ) < lo ∨ hi < (k : ℤ)) → f2 k = f k) ∧
        (∀ m : ℕ, (∃ k : ℕ, lo ≤ (k : ℤ) ∧ (k : ℤ) ≤ hi ∧ f k = m) →
          ∃ k : ℕ, lo ≤ (k : ℤ) ∧ (k : ℤ) ≤ hi ∧ f2 k = m) ∧
        (∀ k : ℕ, lo ≤ (k : ℤ) → (k : ℤ) ≤ hi →
          ∃ q : ℕ, lo ≤ (q : ℤ) ∧ (q : ℤ) ≤ hi ∧ f2 k = f q) := by
  intro fuel
  induction fuel with
  | zero =>
    intro f i j h1 h2 h3 h4 h9 h10 h5 h6 h7 h8 hfuel
    by_cases hij : i ≤ j
    · exact absurd (hfuel hij) (Nat.not_lt_zero _)
    · refine ⟨f, i, j, ?_, not_le.mp hij, h9.resolve_right hij, h3, h4,
        h10.resolve_right hij,
        h5, h6, fun k _ => rfl, fun m hm => hm, fun k hk1 hk2 => ⟨k, hk1, hk2, rfl⟩⟩
      simp only [partLoop, if_neg hij]
  | succ fuel ih =>
    intro f i j h1 h2 h3 h4 h9 h10 h5 h6 h7 h8 hfuel
    by_cases hij : i ≤ j
    · -- one real iteration: run both scans
      obtain ⟨kL, hkL1, hkL2, hkL3⟩ := h7 hij
      obtain ⟨kR, hkR1, hkR2, hkR3⟩ := h8 hij
      obtain ⟨hsi1, hsi2, hsi3⟩ := scanI_spec vals pivot f (vals.length + 1) i
        ⟨kL, hkL1, by omega, hkL3⟩
      obtain ⟨hsj1, hsj2, hsj3⟩ := scanJ_spec vals pivot f (vals.length + 1) j
        ⟨kR, hkR2, by omega, hkR3⟩
      set i2 := scanI vals pivot f (vals.length + 1) i with hi2def
      set j2 := scanJ vals pivot f (vals.length + 1) j with hj2def
      have hi2hi : i2 ≤ hi := by
        by_contra hgt
        exact absurd (hsi3 kL hkL1 (by omega)) (not_lt.mpr hkL3)
      have hj2lo : lo ≤ j2 := by
        by_contra hgt
        exact absurd (hsj3 kR (by omega) hkR2) (not_lt.mpr hkR3)
      by_cases hsw : i2 ≤ j2
      · -- swap branch
        have hi2nn : (0 : ℤ) ≤ i2 := by omega
        have hj2nn : (0 : ℤ) ≤ j2 := by omega
        have hvswap_i2 : vIdx vals (fswap f i2.toNat j2.toNat) i2
            = vIdx vals f j2 := by
          simp only [vIdx, fswap_left]
        have hvswap_j2 : vIdx vals (fswap f i2.toNat j2.toNat) j2
            = vIdx vals f i2 := by
          simp only [vIdx, fswap_right]
        have hvswap_other : ∀ k : ℤ, 0 ≤ k → k ≠ i2 → k ≠ j2 →
            vIdx vals (fswap f i2.toNat j2.toNat) k = vIdx vals f k := by
          intro k hk0 hk1 hk2
          simp only [vIdx]
          rw [fswap_other _ _ _ _ (by omega) (by omega)]
        obtain ⟨f2, i3, j3, hrun, hlt, hloi, hihi, hloj, hjhi, hL, hR, hout,
            hsurj, hsrc⟩ :=
          ih (fswap f i2.toNat j2.toNat) (i2 + 1) (j2 - 1)
            (by omega) (by omega) (by omega) (by omega)
            (by omega) (by omega)
            (by -- left region for the new state
              intro k hk1 hk2
              rcases lt_trichotomy k i2 with hk | hk | hk
              · rcases lt_or_ge k i with hki | hki
                · rw [hvswap_other k (by omega) (by omega) (by omega)]
                  exact h5 k hk1 hki
                · rw [hvswap_other k (by omega) (by omega) (by omega)]
                  exact le_of_lt (hsi3 k hki hk)
              · subst hk
                rw [hvswap_i2]
                exact hsj2
              · omega)
            (by -- right region for the new state
              intro k hk1 hk2
              rcases lt_trichotomy k j2 with hk | hk | hk
              · omega
              · subst hk
                rw [hvswap_j2]
                exact hsi2
              · rcases le_or_lt k j with hkj | hkj
                · rw [hvswap_other k (by omega) (by omega) (by omega)]
                  exact le_of_lt (hsj3 k hk hkj)
                · rw [hvswap_other k (by omega) (by omega) (by omega)]
                  exact h6 k hkj hk2)
            (by -- left stopper
              intro hij2
              refine ⟨j2, by omega, by omega, ?_⟩
              rw [hvswap_j2]
              exact hsi2)
            (by -- right stopper
              intro hij2
              refine ⟨i2, by omega, by omega, ?_⟩
              rw [hvswap_i2]
              exact hsj2)
            (by -- fuel
              intro hij2
              have := hfuel hij
              omega)
        refine ⟨f2, i3, j3, ?_, hlt, hloi, hihi, hloj, hjhi, hL, hR, ?_, ?_, ?_⟩
        · simp only [partLoop, if_pos hij, ← hi2def, ← hj2def, if_pos hsw]
          exact hrun
        · -- outside positions untouched
          intro k hk
          rw [hout k hk]
          rw [fswap_other _ _ _ _ (by omega) (by omega)]
        · -- old segment values still occur
          intro m hm
          apply hsurj
          obtain ⟨k, hk1, hk2, hk3⟩ := hm
          by_cases hki : k = i2.toNat
          · subst hki
            refine ⟨j2.toNat, by omega, by omega, ?_⟩
            rw [fswap_right]
            exact hk3
          · by_cases hkj : k = j2.toNat
            · subst hkj
              refine ⟨i2.toNat, by omega, by omega, ?_⟩
              rw [fswap_left]
              exact hk3
            · exact ⟨k, hk1, hk2, by rw [fswap_other _ _ _ _ hki hkj]; exact hk3⟩
        · -- new segment values come from old ones
          intro k hk1 hk2
          obtain ⟨q, hq1, hq2, hq3⟩ := hsrc k hk1 hk2
          by_cases hqi : q = i2.toNat
          · subst hqi
            refine ⟨j2.toNat, by omega, by omega, ?_⟩
            rw [hq3, fswap_left]
          · by_cases hqj : q = j2.toNat
            · subst hqj
              refine ⟨i2.toNat, by omega, by omega, ?_⟩
              rw [hq3, fswap_right]
            · exact ⟨q, hq1, hq2, by rw [hq3, fswap_other _ _ _ _ hqi hqj]⟩
      · -- exit: scans crossed, no swap
        refine ⟨f, i2, j2, ?_, not_le.mp hsw,
          lt_of_le_of_lt hj2lo (not_le.mp hsw), by linarith,
          by linarith, by linarith [not_le.mp hsw],
          ?_, ?_, fun k _ => rfl, fun m hm => hm,
          fun k hk1 hk2 => ⟨k, hk1, hk2, rfl⟩⟩
        · simp only [partLoop, if_pos hij, ← hi2def, ← hj2def, if_neg hsw]
        · intro k hk1 hk2
          rcases lt_or_ge k i with hki | hki
          · exact h5 k hk1 hki
          · exact le_of_lt (hsi3 k hki hk2)
        · intro k hk1 hk2
          rcases le_or_lt k j with hkj | hkj
          · exact le_of_lt (hsj3 k hk1 hkj)
          · exact h6 k hkj hk2
    · -- already crossed on entry
      refine ⟨f, i, j, ?_, not_le.mp hij, h9.resolve_right hij, h3, h4,
        h10.resolve_right hij,
        h5, h6, fun k _ => rfl, fun m hm => hm, fun k hk1 hk2 => ⟨k, hk1, hk2, rfl⟩⟩
      simp only [partLoop, if_neg hij]

/-- Correctness of the quicksort recursion: with fuel at least the
segment span it succeeds, touches only `[lo, hi]`, rearranges the
segment's values (both directions), and leaves the maximum of the
segment at position `lo`. -/
theorem quicksortF_spec (vals : List ℚ) :
    ∀ (fuel : ℕ) (f : ℕ → ℕ) (lo hi : ℤ),
      0 ≤ lo → hi ≤ (vals.length : ℤ) - 1 → (hi - lo).toNat ≤ fuel →
      ∃ f3, quicksortF vals fuel f lo hi = some f3 ∧
        (∀ k : ℕ, ((k : ℤ) < lo ∨ hi < (k : ℤ)) → f3 k = f k) ∧
        (∀ m : ℕ, (∃ k : ℕ, lo ≤ (k : ℤ) ∧ (k : ℤ) ≤ hi ∧ f k = m) →
          ∃ k : ℕ, lo ≤ (k : ℤ) ∧ (k : ℤ) ≤ hi ∧ f3 k = m) ∧
        (∀ k : ℕ, lo ≤ (k : ℤ) → (k : ℤ) ≤ hi →
          ∃ q : ℕ, lo ≤ (q : ℤ) ∧ (q : ℤ) ≤ hi ∧ f3 k = f q) ∧
        (∀ k : ℤ, lo ≤ k → k ≤ hi → vIdx vals f3 k ≤ vIdx vals f3 lo) := by
  intro fuel
  induction fuel with
  | zero =>
    intro f lo hi hlo hhi hfuel
    have hbase : hi ≤ lo := by omega
    refine ⟨f, ?_, fun k _ => rfl, fun m hm => hm,
      fun k hk1 hk2 => ⟨k, hk1, hk2, rfl⟩, ?_⟩
    · simp only [quicksortF, if_pos hbase]
    · intro k hk1 hk2
      have hk : k = lo := by omega
      subst hk
      exact le_refl _
  | succ fuel ih =>
    intro f lo hi hlo hhi hfuel
    by_cases hbase : hi ≤ lo
    · refine ⟨f, ?_, fun k _ => rfl, fun m hm => hm,
        fun k hk1 hk2 => ⟨k, hk1, hk2, rfl⟩, ?_⟩
      · simp only [quicksortF, if_pos hbase]
      · intro k hk1 hk2
        have hk : k = lo := by omega
        subst hk
        exact le_refl _
    · have hlohi : lo < hi := by omega
      have hmid1 : lo ≤ (lo + hi) / 2 := by omega
      have hmid2 : (lo + hi) / 2 ≤ hi := by omega
      have hmidnn : 0 ≤ (lo + hi) / 2 := by omega
      have hstopL : vIdx vals f ((lo + hi) / 2)
          ≤ vals.getD (f ((lo + hi) / 2).toNat) 0 := le_refl _
      have hstopR : vals.getD (f ((lo + hi) / 2).toNat) 0
          ≤ vIdx vals f ((lo + hi) / 2) := le_refl _
      obtain ⟨f2, i2, j2, hrunP, hji, hloi2, hi2hi1, hloj2, hj2hi, hL, hR,
          houtP, hsurjP, hsrcP⟩ :=
        partLoop_spec vals (vals.getD (f ((lo + hi) / 2).toNat) 0) lo hi hlo hhi
          ((hi - lo).toNat + 2) f lo hi
          (le_refl lo) (le_refl hi) (by omega) (by omega)
          (Or.inr (le_of_lt hlohi)) (Or.inr (le_of_lt hlohi))
          (fun k hk1 hk2 => absurd hk2 (by omega))
          (fun k hk1 hk2 => absurd hk1 (by omega))
          (fun _ => ⟨(lo + hi) / 2, hmid1, hmid2, hstopL⟩)
          (fun _ => ⟨(lo + hi) / 2, hmid1, hmid2, hstopR⟩)
          (fun _ => by omega)
      obtain ⟨f3, hrunL, houtL, hsurjL, hsrcL, hdomL⟩ :
          ∃ f3, (if lo < j2 then quicksortF vals fuel f2 lo j2 else some f2)
              = some f3 ∧
            (∀ k : ℕ, ((k : ℤ) < lo ∨ j2 < (k : ℤ)) → f3 k = f2 k) ∧
            (∀ m : ℕ, (∃ k : ℕ, lo ≤ (k : ℤ) ∧ (k : ℤ) ≤ j2 ∧ f2 k = m) →
              ∃ k : ℕ, lo ≤ (k : ℤ) ∧ (k : ℤ) ≤ j2 ∧ f3 k = m) ∧
            (∀ k : ℕ, lo ≤ (k : ℤ) → (k : ℤ) ≤ j2 →
              ∃ q : ℕ, lo ≤ (q : ℤ) ∧ (q : ℤ) ≤ j2 ∧ f3 k = f2 q) ∧
            (∀ k : ℤ, lo ≤ k → k ≤ j2 →
              vIdx vals f3 k ≤ vIdx vals f3 lo) := by
        by_cases hLrun : lo < j2
        · rw [if_pos hLrun]
          exact ih f2 lo j2 hlo (by omega) (by omega)
        · rw [if_neg hLrun]
          refine ⟨f2, rfl, fun k _ => rfl, fun m hm => hm,
            fun k hk1 hk2 => ⟨k, hk1, hk2, rfl⟩, ?_⟩
          intro k hk1 hk2
          have hk : k = lo := by omega
          subst hk
          exact le_refl _
      obtain ⟨f4, hrunR, houtR, hsurjR, hsrcR, _⟩ :
          ∃ f4, (if i2 < hi then quicksortF vals fuel f3 i2 hi else some f3)
              = some f4 ∧
            (∀ k : ℕ, ((k : ℤ) < i2 ∨ hi < (k : ℤ)) → f4 k = f3 k) ∧
            (∀ m : ℕ, (∃ k : ℕ, i2 ≤ (k : ℤ) ∧ (k : ℤ) ≤ hi ∧ f3 k = m) →
              ∃ k : ℕ, i2 ≤ (k : ℤ) ∧ (k : ℤ) ≤ hi ∧ f4 k = m) ∧
            (∀ k : ℕ, i2 ≤ (k : ℤ) → (k : ℤ) ≤ hi →
              ∃ q : ℕ, i2 ≤ (q : ℤ) ∧ (q : ℤ) ≤ hi ∧ f4 k = f3 q) ∧
            (∀ k : ℤ, i2 ≤ k → k ≤ hi →
              vIdx vals f4 k ≤ vIdx vals f4 i2) := by
        by_cases hRrun : i2 < hi
        · rw [if_pos hRrun]
          exact ih f3 i2 hi (by omega) hhi (by omega)
        · rw [if_neg hRrun]
          refine ⟨f3, rfl, fun k _ => rfl, fun m hm => hm,
            fun k hk1 hk2 => ⟨k, hk1, hk2, rfl⟩, ?_⟩
          intro k hk1 hk2
          have hk : k = i2 := by omega
          subst hk
          exact le_refl _
      have hrun : quicksortF vals (fuel + 1) f lo hi = some f4 := by
        simp only [quicksortF, if_neg hbase, hrunP, hrunL, hrunR]
      -- the value at lo after the right half ran
      have hf4lo : f4 lo.toNat = f3 lo.toNat := by
        apply houtR
        left
        omega
      have hf3lo_ge : vals.getD (f ((lo + hi) / 2).toNat) 0
          ≤ vIdx vals f3 lo := by
        rcases le_or_lt lo j2 with hj2ge | hj2lt
        · obtain ⟨q, hq1, hq2, hq3⟩ := hsrcL lo.toNat (by omega) (by omega)
          have h2 : vIdx vals f3 lo = vIdx vals f2 (q : ℤ) := by
            simp only [vIdx, hq3, Int.toNat_natCast]
          rw [h2]
          exact hL (q : ℤ) hq1 (by omega)
        · have h1 : f3 lo.toNat = f2 lo.toNat := by
            apply houtL
            right
            omega
          have h2 : vIdx vals f3 lo = vIdx vals f2 lo := by
            simp only [vIdx, h1]
          rw [h2]
          exact hL lo (le_refl lo) (by omega)
      have hf4lo_eq : vIdx vals f4 lo = vIdx vals f3 lo := by
        simp only [vIdx, hf4lo]
      have hf4lo_ge : vals.getD (f ((lo + hi) / 2).toNat) 0
          ≤ vIdx vals f4 lo := by
        rw [hf4lo_eq]
        exact hf3lo_ge
      refine ⟨f4, hrun, ?_, ?_, ?_, ?_⟩
      · intro k hk
        have h1 : f4 k = f3 k := by
          apply houtR
          rcases hk with h | h
          · left; omega
          · right; exact h
        have h2 : f3 k = f2 k := by
          apply houtL
          rcases hk with h | h
          · left; exact h
          · right; omega
        rw [h1, h2, houtP k hk]
      · intro m hm
        obtain ⟨k1, hk11, hk12, hk13⟩ := hsurjP m hm
        have step2 : ∃ k2 : ℕ, lo ≤ (k2 : ℤ) ∧ (k2 : ℤ) ≤ hi ∧ f3 k2 = m := by
          rcases le_or_lt (k1 : ℤ) j2 with hle | hgt
          · obtain ⟨k2, h1, h2, h3⟩ := hsurjL m ⟨k1, hk11, hle, hk13⟩
            exact ⟨k2, h1, by omega, h3⟩
          · exact ⟨k1, hk11, hk12, by rw [houtL k1 (Or.inr hgt)]; exact hk13⟩
        obtain ⟨k2, hk21, hk22, hk23⟩ := step2
        rcases lt_or_ge (k2 : ℤ) i2 with hlt | hge
        · exact ⟨k2, hk21, hk22, by rw [houtR k2 (Or.inl hlt)]; exact hk23⟩
        · obtain ⟨k3, h1, h2, h3⟩ := hsurjR m ⟨k2, hge, hk22, hk23⟩
          exact ⟨k3, by omega, h2, h3⟩
      · intro k hk1 hk2
        have step1 : ∃ q1 : ℕ, lo ≤ (q1 : ℤ) ∧ (q1 : ℤ) ≤ hi ∧ f4 k = f3 q1 := by
          rcases lt_or_ge (k : ℤ) i2 with hlt | hge
          · exact ⟨k, hk1, hk2, houtR k (Or.inl hlt)⟩
          · obtain ⟨q, h1, h2, h3⟩ := hsrcR k hge hk2
            exact ⟨q, by omega, h2, h3⟩
        obtain ⟨q1, hq11, hq12, hq13⟩ := step1
        have step2 : ∃ q2 : ℕ, lo ≤ (q2 : ℤ) ∧ (q2 : ℤ) ≤ hi ∧ f3 q1 = f2 q2 := by
          rcases le_or_lt (q1 : ℤ) j2 with hle | hgt
          · obtain ⟨q2, h1, h2, h3⟩ := hsrcL q1 hq11 hle
            exact ⟨q2, h1, by omega, h3⟩
          · exact ⟨q1, hq11, hq12, houtL q1 (Or.inr hgt)⟩
        obtain ⟨q2, hq21, hq22, hq23⟩ := step2
        obtain ⟨q3, h1, h2, h3⟩ := hsrcP q2 hq21 hq22
        exact ⟨q3, h1, h2, by rw [hq13, hq23, h3]⟩
      · intro k hk1 hk2
        rcases le_or_lt k j2 with hkj2 | hkgt
        · have h1 : vIdx vals f4 k = vIdx vals f3 k := by
            simp only [vIdx]
            rw [houtR k.toNat (Or.inl (by omega))]
          rw [h1, hf4lo_eq]
          exact hdomL k hk1 hkj2
        · have hle_pivot : vIdx vals f4 k
              ≤ vals.getD (f ((lo + hi) / 2).toNat) 0 := by
            rcases lt_or_ge k i2 with hki2 | hki2
            · have h1 : f4 k.toNat = f3 k.toNat :=
                houtR k.toNat (Or.inl (by omega))
              have h2 : f3 k.toNat = f2 k.toNat :=
                houtL k.toNat (Or.inr (by omega))
              have h3 : vIdx vals f4 k = vIdx vals f2 k := by
                simp only [vIdx, h1, h2]
              rw [h3]
              exact hR k hkgt hk2
            · obtain ⟨q, hq1, hq2, hq3⟩ := hsrcR k.toNat (by omega) (by omega)
              have h2 : f3 q = f2 q := houtL q (Or.inr (by omega))
              have h3 : vIdx vals f4 k = vIdx vals f2 (q : ℤ) := by
                simp only [vIdx, hq3, h2, Int.toNat_natCast]
              rw [h3]
              exact hR (q : ℤ) (by omega) hq2
          exact le_trans hle_pivot hf4lo_ge

/-- `Storage.Search`: dot-product scores against every stored vector,
indexes sorted descending, the top `topK` (default 5 when `≤ 0`,
clamped to the stored count) materialized as results. -/
def MemStore.Search (s : MemStore) (v : List ℚ) (topK : ℤ) :
    List SearchResult :=
  let k := if topK ≤ 0 then (5 : ℤ) else topK
  let scores := s.vectors.map (fun w => dot w v)
  let idxs := argsortDesc scores
  let k2 := if (idxs.length : ℤ) < k then (idxs.length : ℤ) else k
  (idxs.take k2.toNat).map
    (fun j => SearchResult.mk (s.chunks.getD j default) (scores.getD j 0))

/-- What `argsortDesc` guarantees: a list of `vals.length` indexes,
containing every index below `vals.length` and nothing else, whose
first element points at a maximal value. -/
theorem argsortDesc_spec (vals : List ℚ) :
    (argsortDesc vals).length = vals.length ∧
    (∀ m, m < vals.length → m ∈ argsortDesc vals) ∧
    (∀ t ∈ argsortDesc vals, t < vals.length) ∧
    (∀ t ∈ argsortDesc vals,
      vals.getD t 0 ≤ vals.getD ((argsortDesc vals).getD 0 0) 0) := by
  obtain ⟨f3, hrun, hout, hsurj, hsrc, hdom⟩ :=
    quicksortF_spec vals vals.length (fun x => x) 0 ((vals.length : ℤ) - 1)
      (le_refl 0) (le_refl _) (by omega)
  have hargs : argsortDesc vals = (List.range vals.length).map f3 := by
    rw [argsortDesc, hrun]
  refine ⟨by rw [hargs]; simp, ?_, ?_, ?_⟩
  · intro m hm
    obtain ⟨q, hq1, hq2, hq3⟩ := hsurj m ⟨m, by omega, by omega, rfl⟩
    rw [hargs]
    exact List.mem_map.mpr ⟨q, List.mem_range.mpr (by omega), hq3⟩
  · intro t ht
    rw [hargs] at ht
    obtain ⟨q, hq1, hq2⟩ := List.mem_map.mp ht
    have hq3 := List.mem_range.mp hq1
    obtain ⟨r, hr1, hr2, hr3⟩ := hsrc q (by omega) (by omega)
    omega
  · intro t ht
    have hpos : 0 < vals.length := by
      by_contra h0
      rw [hargs] at ht
      obtain ⟨q, hq1, _⟩ := List.mem_map.mp ht
      have := List.mem_range.mp hq1
      omega
    rw [hargs] at ht
    obtain ⟨q, hq1, hq2⟩ := List.mem_map.mp ht
    have hq3 := List.mem_range.mp hq1
    have h0 : (argsortDesc vals).getD 0 0 = f3 0 := by
      rw [hargs, List.getD_eq_getElem _ _ (by simpa using hpos),
        List.getElem_map]
      congr 1
      simp
    rw [h0, ← hq2]
    have h1 : vals.getD (f3 q) 0 = vIdx vals f3 (q : ℤ) := by
      simp [vIdx]
    have h2 : vals.getD (f3 0) 0 = vIdx vals f3 0 := by
      simp [vIdx]
    rw [h1, h2]
    exact hdom (q : ℤ) (by omega) (by omega)

/-- The dot product of a vector with itself is its sum of squares. -/
theorem dot_self_eq_sumSq (w : List ℚ) : dot w w = sumSq w := by
  rw [dot, sumSq]
  congr 1
  induction w with
  | nil => rfl
  | cons x xs ih => simp [List.zipWith_cons_cons, ih]

/-- Twice a dot product is at most the sum of the two sums of squares
(the two-sided Cauchy-Schwarz bound the round-trip claim needs). -/
theorem two_dot_le (a : List ℚ) : ∀ b, 2 * dot a b ≤ sumSq a + sumSq b := by
  induction a with
  | nil =>
    intro b
    simpa [dot, sumSq] using sumSq_nonneg b
  | cons x as ih =>
    intro b
    cases b with
    | nil =>
      simpa [dot, sumSq] using sumSq_nonneg (x :: as)
    | cons y bs =>
      have h := ih bs
      simp only [dot, sumSq, List.zipWith_cons_cons, List.map_cons,
        List.sum_cons] at h ⊢
      nlinarith [sq_nonneg (x - y)]

/-- Dot products of unit vectors are at most 1. -/
theorem dot_le_one (a b : List ℚ) (ha : sumSq a = 1) (hb : sumSq b = 1) :
    dot a b ≤ 1 := by
  have h := two_dot_le a b
  rw [ha, hb] at h
  linarith

/-- `Search` on a store whose scores are bounded by 1 with the value 1
attained: the result list is non-empty, its first result has score
exactly 1, and every result scores at most 1. -/
theorem search_top_max (s2 : MemStore) (v : List ℚ) (k : ℤ)
    (hn : 0 < s2.vectors.length)
    (hle : ∀ m, m < (s2.vectors.map (fun w => dot w v)).length →
      (s2.vectors.map (fun w => dot w v)).getD m 0 ≤ 1)
    (hex : ∃ i, i < s2.vectors.length ∧
      (s2.vectors.map (fun w => dot w v)).getD i 0 = 1) :
    s2.Search v k ≠ [] ∧
    ((s2.Search v k).getD 0 default).score = 1 ∧
    (∀ r ∈ s2.Search v k, r.score ≤ 1) := by
  set scores := s2.vectors.map (fun w => dot w v) with hscores
  have hslen : scores.length = s2.vectors.length := by
    rw [hscores, List.length_map]
  obtain ⟨hlen, hmem, hbnd, hdom⟩ := argsortDesc_spec scores
  obtain ⟨T, hT1, hSeq⟩ : ∃ t : ℕ, 1 ≤ t ∧
      s2.Search v k = ((argsortDesc scores).take t).map
        (fun j => SearchResult.mk (s2.chunks.getD j default)
          (scores.getD j 0)) := by
    refine ⟨(if ((argsortDesc scores).length : ℤ) < (if k ≤ 0 then (5 : ℤ) else k)
        then ((argsortDesc scores).length : ℤ)
        else (if k ≤ 0 then (5 : ℤ) else k)).toNat, ?_, rfl⟩
    have h5 : (1 : ℤ) ≤ if k ≤ 0 then (5 : ℤ) else k := by
      split <;> omega
    have hlen1 : 1 ≤ ((argsortDesc scores).length : ℤ) := by
      rw [hlen]
      exact_mod_cast (by rw [hslen]; exact hn : 0 < scores.length)
    split <;> omega
  have hidxne : 0 < (argsortDesc scores).length := by
    rw [hlen, hslen]
    exact hn
  have hreslen : 0 < (((argsortDesc scores).take T).map
      (fun j => SearchResult.mk (s2.chunks.getD j default)
        (scores.getD j 0))).length := by
    rw [List.length_map, List.length_take]
    omega
  refine ⟨?_, ?_, ?_⟩
  · rw [hSeq]
    exact List.ne_nil_of_length_pos hreslen
  · rw [hSeq, List.getD_eq_getElem _ _ hreslen, List.getElem_map]
    have htake : 0 < ((argsortDesc scores).take T).length := by
      rw [List.length_take]; omega
    have hel : ((argsortDesc scores).take T)[0] = (argsortDesc scores)[0] := by
      rw [List.getElem_take]
    rw [hel]
    have hj0mem : (argsortDesc scores)[0] ∈ argsortDesc scores :=
      List.getElem_mem _
    have hup : scores.getD ((argsortDesc scores)[0]) 0 ≤ 1 := by
      apply hle
      exact hbnd _ hj0mem
    obtain ⟨i0, hi0, hi0v⟩ := hex
    have hlow : (1 : ℚ) ≤ scores.getD ((argsortDesc scores)[0]) 0 := by
      have hi0mem : i0 ∈ argsortDesc scores := hmem i0 (by rw [hslen]; exact hi0)
      have := hdom i0 hi0mem
      rw [hi0v] at this
      rw [List.getD_eq_getElem _ _ hidxne] at this
      exact this
    exact le_antisymm hup hlow
  · intro r hr
    rw [hSeq] at hr
    obtain ⟨j, hj1, hj2⟩ := List.mem_map.mp hr
    have hjmem : j ∈ argsortDesc scores := List.mem_of_mem_take hj1
    have hjlt : j < scores.length := hbnd j hjmem
    rw [← hj2]
    exact hle j hjlt

/-- C6: on a store holding only L2-normalized vectors (modelled as
`sumSq w = 1`), upserting a unit vector of the right dimension
succeeds, and searching with that exact vector returns a non-empty
result whose rank-0 score is exactly 1 - the maximum achievable, since
no stored unit vector scores above 1 against `v` (the remaining two
conjuncts).  With exact arithmetic, 1 is attained only by vectors
equal to `v`, so ties at the top can only be duplicates of `v`. -/
theorem memstore_c6_roundtrip (s : MemStore) (c : Chunk) (v : List ℚ)
    (hunit : ∀ w ∈ s.vectors, sumSq w = 1) (hv : sumSq v = 1)
    (hdim : v.length = s.dimension) (k : ℤ) :
    (s.Upsert [c] [v]).2 = none ∧
    (s.Upsert [c] [v]).1.Search v k ≠ [] ∧
    (((s.Upsert [c] [v]).1.Search v k).getD 0 default).score = 1 ∧
    (∀ w ∈ (s.Upsert [c] [v]).1.vectors, dot w v ≤ 1) ∧
    (∀ r ∈ (s.Upsert [c] [v]).1.Search v k, r.score ≤ 1) := by
  have hup : s.Upsert [c] [v]
      = (({ s with
           chunks := s.chunks ++ [c]
           vectors := s.vectors ++ [v] } : MemStore), none) := by
    rw [MemStore.Upsert, if_neg (by simp), if_neg (by simp [hdim])]
  rw [hup]
  have hunit2 : ∀ w ∈ s.vectors ++ [v], sumSq w = 1 := by
    intro w hw
    rcases List.mem_append.mp hw with h | h
    · exact hunit w h
    · rw [List.mem_singleton.mp h]
      exact hv
  have hdotle : ∀ w ∈ s.vectors ++ [v], dot w v ≤ 1 := fun w hw =>
    dot_le_one w v (hunit2 w hw) hv
  have hn : 0 < ({ s with
      chunks := s.chunks ++ [c]
      vectors := s.vectors ++ [v] } : MemStore).vectors.length := by
    simp
  have hle : ∀ m, m < (({ s with
        chunks := s.chunks ++ [c]
        vectors := s.vectors ++ [v] } : MemStore).vectors.map
        (fun w => dot w v)).length →
      (({ s with
        chunks := s.chunks ++ [c]
        vectors := s.vectors ++ [v] } : MemStore).vectors.map
        (fun w => dot w v)).getD m 0 ≤ 1 := by
    intro m hm
    rw [List.getD_eq_getElem _ _ hm, List.getElem_map]
    exact hdotle _ (List.getElem_mem _)
  have hex : ∃ i, i < ({ s with
        chunks := s.chunks ++ [c]
        vectors := s.vectors ++ [v] } : MemStore).vectors.length ∧
      (({ s with
        chunks := s.chunks ++ [c]
        vectors := s.vectors ++ [v] } : MemStore).vectors.map
        (fun w => dot w v)).getD i 0 = 1 := by
    refine ⟨s.vectors.length, by simp, ?_⟩
    have hml : s.vectors.length < (({ s with
        chunks := s.chunks ++ [c]
        vectors := s.vectors ++ [v] } : MemStore).vectors.map
        (fun w => dot w v)).length := by
      simp
    rw [List.getD_eq_getElem _ _ hml, List.getElem_map]
    have hbv : s.vectors.length < (({ s with
        chunks := s.chunks ++ [c]
        vectors := s.vectors ++ [v] } : MemStore).vectors).length := by
      simp
    have hvv : (({ s with
        chunks := s.chunks ++ [c]
        vectors := s.vectors ++ [v] } : MemStore).vectors)[s.vectors.length]
        = v := by
      have hbv2 : s.vectors.length < (s.vectors ++ [v]).length := by simp
      show (s.vectors ++ [v])[s.vectors.length] = v
      rw [List.getElem_append_right (le_refl _)]
      simp
    rw [hvv, dot_self_eq_sumSq, hv]
  obtain ⟨ha, hb, hc⟩ := search_top_max
    ({ s with
      chunks := s.chunks ++ [c]
      vectors := s.vectors ++ [v] }) v k
    hn hle hex
  exact ⟨rfl, ha, hb, hdotle, hc⟩

/-- Witness for C6 on a 2-dimensional store holding one basis vector,
upserting the other basis vector. -/
theorem memstore_c6_roundtrip_witness :
    (∀ w ∈ (MemStore.mk 2 [[1, 0]] [Chunk.mk "d" "d:0" "a" 0]).vectors,
      sumSq w = 1) ∧
    sumSq [(0 : ℚ), 1] = 1 ∧
    ([(0 : ℚ), 1] : List ℚ).length
      = (MemStore.mk 2 [[1, 0]] [Chunk.mk "d" "d:0" "a" 0]).dimension ∧
    (((MemStore.mk 2 [[1, 0]] [Chunk.mk "d" "d:0" "a" 0]).Upsert
        [Chunk.mk "d" "d:1" "b" 1] [[0, 1]]).2 = none ∧
      ((MemStore.mk 2 [[1, 0]] [Chunk.mk "d" "d:0" "a" 0]).Upsert
        [Chunk.mk "d" "d:1" "b" 1] [[0, 1]]).1.Search [0, 1] 5 ≠ [] ∧
      ((((MemStore.mk 2 [[1, 0]] [Chunk.mk "d" "d:0" "a" 0]).Upsert
        [Chunk.mk "d" "d:1" "b" 1] [[0, 1]]).1.Search [0, 1] 5).getD 0
          default).score = 1 ∧
      (∀ w ∈ ((MemStore.mk 2 [[1, 0]] [Chunk.mk "d" "d:0" "a" 0]).Upsert
        [Chunk.mk "d" "d:1" "b" 1] [[0, 1]]).1.vectors, dot w [0, 1] ≤ 1) ∧
      (∀ r ∈ ((MemStore.mk 2 [[1, 0]] [Chunk.mk "d" "d:0" "a" 0]).Upsert
        [Chunk.mk "d" "d:1" "b" 1] [[0, 1]]).1.Search [0, 1] 5,
        r.score ≤ 1)) := by
  have hunit : ∀ w ∈ (MemStore.mk 2 [[1, 0]]
      [Chunk.mk "d" "d:0" "a" 0]).vectors, sumSq w = 1 := by
    intro w hw
    rw [List.mem_singleton.mp hw]
    norm_num [sumSq]
  have hv : sumSq [(0 : ℚ), 1] = 1 := by norm_num [sumSq]
  exact ⟨hunit, hv, rfl,
    memstore_c6_roundtrip (MemStore.mk 2 [[1, 0]] [Chunk.mk "d" "d:0" "a" 0])
      (Chunk.mk "d" "d:1" "b" 1) [0, 1] hunit hv rfl 5⟩

/-! ## The remote embedder retry policy (`openai.go`)

Delays are `time.Duration`s, i.e. `int64` nanoseconds; the shift
`base << attempt` wraps like an `int64`, which `Int.bmod _ (2 ^ 64)`
models exactly (and a Go shift by ≥ 64 yields 0, which the model also
reproduces since the factor is then a multiple of `2 ^ 64`). -/

/-- `maxRetries` as set by `NewClient`. -/
def maxRetries : ℕ := 5

/-- `retryDelay`: clamp the attempt at 0, shift the 200ms base left by
it (with `int64` wrap-around), cap at 5s. -/
def retryDelay (attempt : ℤ) : ℤ :=
  let a := if attempt < 0 then 0 else attempt
  let d := Int.bmod (200000000 * 2 ^ a.toNat) (2 ^ 64)
  if 5000000000 < d then 5000000000 else d

/-- The sleep chosen on a retryable response (lines 93-106 of
`openai.go`): a numeric `Retry-After` header (modelled as
`some seconds`, i.e. `strconv.Atoi` succeeded) overrides the computed
backoff; `time.Duration(secs) * time.Second` is `int64` multiplication. -/
def retrySleep (retryAfterSecs : Option ℤ) (attempt : ℤ) : ℤ :=
  match retryAfterSecs with
  | some secs => Int.bmod (secs * 1000000000) (2 ^ 64)
  | none => retryDelay attempt

/-- C7: over the attempt numbers `0 ≤ a ≤ b ≤ maxRetries` that occur
during one `Embed` call, the computed delay is non-decreasing and
capped at 5 seconds, and a numeric `Retry-After` header of `s` seconds
(any sane value; bounded here to keep the `int64` model away from
wrap-around) makes the slept delay exactly `s` seconds instead of the
computed backoff. -/
theorem openai_c7_backoff (a b : ℤ) (h0 : 0 ≤ a) (hab : a ≤ b)
    (hb : b ≤ (maxRetries : ℤ)) :
    retryDelay a ≤ retryDelay b ∧
    retryDelay b ≤ 5000000000 ∧
    (∀ s : ℤ, 0 ≤ s → s ≤ 3600 → retrySleep (some s) a = s * 1000000000) := by
  have hmax : (maxRetries : ℤ) = 5 := by norm_num [maxRetries]
  rw [hmax] at hb
  have ha5 : a ≤ 5 := le_trans hab hb
  refine ⟨?_, ?_, ?_⟩
  · interval_cases a <;> interval_cases b <;> decide
  · have hb0 : 0 ≤ b := le_trans h0 hab
    interval_cases b <;> decide
  · intro s hs0 hs1
    show Int.bmod (s * 1000000000) (2 ^ 64) = s * 1000000000
    rw [Int.bmod]
    rw [Int.emod_eq_of_lt (by positivity) (by norm_num; omega)]
    rw [if_pos (by norm_num; omega)]

/-- Witness for C7 at attempts 1 and 5 and a 3-second header. -/
theorem openai_c7_backoff_witness :
    (0 : ℤ) ≤ 1 ∧ (1 : ℤ) ≤ 5 ∧ (5 : ℤ) ≤ (maxRetries : ℤ) ∧
    (retryDelay 1 ≤ retryDelay 5 ∧ retryDelay 5 ≤ 5000000000 ∧
      (∀ s : ℤ, 0 ≤ s → s ≤ 3600 →
        retrySleep (some s) 1 = s * 1000000000)) :=
  ⟨by norm_num, by norm_num, by norm_num [maxRetries],
    openai_c7_backoff 1 5 (by norm_num) (by norm_num)
      (by norm_num [maxRetries])⟩

/-! ## The lexical fallback (`lexicalSearch` in `rag_service.go`)

`lexicalSearch` sorts its scored pairs with `sort.Slice`, a Go
standard-library routine whose implementation lives outside this
repository and which Go documents as NOT stable.  It is modelled by a
function parameter `p` together with `SortSliceOk`, the two properties
its contract guarantees for the comparator
`scores[i].score > scores[j].score`: the output is a permutation of
the input and its scores are non-increasing. -/

/-- The scored pairs built by `lexicalSearch` before sorting:
`scores[i] = pair{i, overlapOchiai(qset, chunks[i].Text)}`. -/
def lexPairs (chunks : List Chunk) (qset : Finset String) : List (ℕ × ℚ) :=
  (List.range chunks.length).map
    (fun i => (i, overlapOchiai qset (chunks.getD i default).text))

/-- The `sort.Slice` contract for the descending-score comparator of
`lexicalSearch`: a permutation of the input, sorted by the comparator
(scores non-increasing). Order among equal scores is NOT constrained. -/
def SortSliceOk (inp out : List (ℕ × ℚ)) : Prop :=
  out.Perm inp ∧ out.Pairwise (fun x y => y.2 ≤ x.2)

/-- `lexicalSearch` from `rag_service.go`, parametric in the
`sort.Slice` implementation `p`: score every chunk, sort descending,
default `topK ≤ 0` to 5, clamp to the number of pairs, and emit the
first `topK` pairs as results. -/
def lexicalSearch (p : List (ℕ × ℚ) → List (ℕ × ℚ))
    (chunks : List Chunk) (query : String) (topK : ℤ) : List SearchResult :=
  let qset := tokenSetOf query
  let scores := p (lexPairs chunks qset)
  let k1 := if topK ≤ 0 then (5 : ℤ) else topK
  let k2 := if (scores.length : ℤ) < k1 then (scores.length : ℤ) else k1
  (scores.take k2.toNat).map
    (fun q => SearchResult.mk (chunks.getD q.1 default) q.2)

theorem lexPairs_length (chunks : List Chunk) (qset : Finset String) :
    (lexPairs chunks qset).length = chunks.length := by
  simp [lexPairs]

/-- C2 (amended): for every `sort.Slice` implementation meeting its
contract, the lexical fallback returns results with non-increasing
scores, exactly `min topK' n` of them where `topK'` defaults to 5 when
`topK ≤ 0` and `n` is the number of ingested chunks, every result is
some chunk paired with its Ochiai score against the query, and every
returned score dominates every pair left behind. The original claim's
tie-break by original chunk order is NOT guaranteed (see the
counterexample): `sort.Slice` is documented as unstable. -/
theorem service_c2_lexical (p : List (ℕ × ℚ) → List (ℕ × ℚ))
    (chunks : List Chunk) (query : String) (topK : ℤ)
    (hsort : SortSliceOk (lexPairs chunks (tokenSetOf query))
      (p (lexPairs chunks (tokenSetOf query)))) :
    (lexicalSearch p chunks query topK).length
      = min (if topK ≤ 0 then 5 else topK).toNat chunks.length ∧
    (lexicalSearch p chunks query topK).Pairwise
      (fun r r2 => r2.score ≤ r.score) ∧
    (∀ r ∈ lexicalSearch p chunks query topK, ∃ i, i < chunks.length ∧
      r.chunk = chunks.getD i default ∧
      r.score = overlapOchiai (tokenSetOf query)
        (chunks.getD i default).text) ∧
    (∀ r ∈ lexicalSearch p chunks query topK,
      ∀ q ∈ (p (lexPairs chunks (tokenSetOf query))).drop
        (lexicalSearch p chunks query topK).length,
      q.2 ≤ r.score) := by
  obtain ⟨hperm, hpw⟩ := hsort
  have hlen : (p (lexPairs chunks (tokenSetOf query))).length
      = chunks.length := hperm.length_eq.trans (lexPairs_length _ _)
  have hres : lexicalSearch p chunks query topK
      = ((p (lexPairs chunks (tokenSetOf query))).take
          (if ((p (lexPairs chunks (tokenSetOf query))).length : ℤ)
              < (if topK ≤ 0 then (5 : ℤ) else topK)
            then ((p (lexPairs chunks (tokenSetOf query))).length : ℤ)
            else (if topK ≤ 0 then (5 : ℤ) else topK)).toNat).map
        (fun q => SearchResult.mk (chunks.getD q.1 default) q.2) := rfl
  have hreslen : (lexicalSearch p chunks query topK).length
      = min (if topK ≤ 0 then 5 else topK).toNat chunks.length := by
    rw [hres]
    rw [List.length_map, List.length_take, hlen]
    by_cases ht : topK ≤ 0
    · simp only [if_pos ht]
      rcases lt_or_le (chunks.length : ℤ) (5 : ℤ) with h | h
      · rw [if_pos h]; omega
      · rw [if_neg (not_lt.mpr h)]
    · simp only [if_neg ht]
      rcases lt_or_le (chunks.length : ℤ) topK with h | h
      · rw [if_pos h]; omega
      · rw [if_neg (not_lt.mpr h)]
  refine ⟨hreslen, ?_, ?_, ?_⟩
  · rw [hres, List.pairwise_map]
    exact hpw.sublist (List.take_sublist _ _)
  · intro r hr
    rw [hres] at hr
    obtain ⟨q, hq, rfl⟩ := List.mem_map.mp hr
    have hq2 : q ∈ lexPairs chunks (tokenSetOf query) :=
      hperm.subset (List.mem_of_mem_take hq)
    rw [lexPairs, List.mem_map] at hq2
    obtain ⟨i, hi, hqi⟩ := hq2
    refine ⟨i, List.mem_range.mp hi, ?_, ?_⟩
    · show (chunks.getD q.1 default) = _
      rw [← hqi]
    · show q.2 = _
      rw [← hqi]
  · intro r hr q hq
    rw [hreslen] at hq
    rw [hres] at hr
    obtain ⟨q0, hq0, rfl⟩ := List.mem_map.mp hr
    show q.2 ≤ q0.2
    have htake : (p (lexPairs chunks (tokenSetOf query))).take
          (if ((p (lexPairs chunks (tokenSetOf query))).length : ℤ)
              < (if topK ≤ 0 then (5 : ℤ) else topK)
            then ((p (lexPairs chunks (tokenSetOf query))).length : ℤ)
            else (if topK ≤ 0 then (5 : ℤ) else topK)).toNat
        = (p (lexPairs chunks (tokenSetOf query))).take
          (min (if topK ≤ 0 then 5 else topK).toNat chunks.length) := by
      rw [hlen]
      by_cases ht : topK ≤ 0
      · simp only [if_pos ht]
        rcases lt_or_le (chunks.length : ℤ) (5 : ℤ) with h | h
        · rw [if_pos h]; congr 1; omega
        · rw [if_neg (not_lt.mpr h)]; congr 1; omega
      · simp only [if_neg ht]
        rcases lt_or_le (chunks.length : ℤ) topK with h | h
        · rw [if_pos h]; congr 1; omega
        · rw [if_neg (not_lt.mpr h)]; congr 1; omega
    rw [htake] at hq0
    have hsplit := List.take_append_drop
      (min (if topK ≤ 0 then 5 else topK).toNat chunks.length)
      (p (lexPairs chunks (tokenSetOf query)))
    rw [← hsplit] at hpw
    have hcross := (List.pairwise_append.mp hpw).2.2
    exact hcross q0 hq0 q hq

/-- Witness for C2 (amended) on a one-chunk corpus with the identity
sort (already sorted). -/
theorem service_c2_lexical_witness :
    SortSliceOk (lexPairs [Chunk.mk "d" "d:0" "Cat." 0] (tokenSetOf "cat"))
      (id (lexPairs [Chunk.mk "d" "d:0" "Cat." 0] (tokenSetOf "cat"))) ∧
    (lexicalSearch id [Chunk.mk "d" "d:0" "Cat." 0] "cat" 0).length = 1 := by
  have hok : SortSliceOk
      (lexPairs [Chunk.mk "d" "d:0" "Cat." 0] (tokenSetOf "cat"))
      (id (lexPairs [Chunk.mk "d" "d:0" "Cat." 0] (tokenSetOf "cat"))) :=
    ⟨List.Perm.refl _, by
      have h1 : List.range 1 = [0] := rfl
      rw [lexPairs, List.length_singleton, h1]
      simp⟩
  refine ⟨hok, ?_⟩
  have h := (service_c2_lexical id [Chunk.mk "d" "d:0" "Cat." 0]
    "cat" 0 hok).1
  rw [h]
  decide

/-- C2 counterexample: two chunks whose token set against the query
"cat" is identical (hence equal scores 1); the constant function
returning the swapped pair list satisfies the `sort.Slice` contract at
this input, yet the results come out in the REVERSE of the chunks'
original order. So no tie-break by original order is guaranteed. -/
theorem service_c2_counterexample :
    ∃ p : List (ℕ × ℚ) → List (ℕ × ℚ),
      SortSliceOk
        (lexPairs [Chunk.mk "d" "d:0" "Cat." 0, Chunk.mk "d" "d:1" "cat" 1]
          (tokenSetOf "cat"))
        (p (lexPairs [Chunk.mk "d" "d:0" "Cat." 0, Chunk.mk "d" "d:1" "cat" 1]
          (tokenSetOf "cat"))) ∧
      ((lexicalSearch p
          [Chunk.mk "d" "d:0" "Cat." 0, Chunk.mk "d" "d:1" "cat" 1]
          "cat" 5).map (fun r => r.chunk.index)) = [1, 0] ∧
      ((lexicalSearch p
          [Chunk.mk "d" "d:0" "Cat." 0, Chunk.mk "d" "d:1" "cat" 1]
          "cat" 5).map (fun r => r.score)) = [1, 1] := by
  refine ⟨fun _ => [(1, (1 : ℚ)), (0, 1)], ?_, ?_, ?_⟩
  · have hsc : ∀ t : String, tokenSetOf t = tokenSetOf "cat" →
        overlapOchiai (tokenSetOf "cat") t = 1 := by
      intro t ht
      rw [overlapOchiai_eq_ochiaiSets, ht]
      exact ochiaiSets_self_singleton _ (by decide)
    have hpair : lexPairs
        [Chunk.mk "d" "d:0" "Cat." 0, Chunk.mk "d" "d:1" "cat" 1]
        (tokenSetOf "cat") = [(0, 1), (1, 1)] := by
      rw [lexPairs]
      show [((0 : ℕ), overlapOchiai (tokenSetOf "cat") "Cat."),
        (1, overlapOchiai (tokenSetOf "cat") "cat")] = [(0, 1), (1, 1)]
      rw [hsc "Cat." (by decide), hsc "cat" (by decide)]
    rw [hpair]
    exact ⟨List.Perm.swap _ _ _, by simp⟩
  · rfl
  · rfl

/-! ## `IngestDocuments` after the chunking step (`rag_service.go`)

The concrete in-repository vector store is the in-memory `Storage`
modelled above as `MemStore`.  The embedder behind the
`domain.Embedder` interface is kept abstract: `prepare` models
`Prepare` followed by `Dimension()` (an error or the dimension) and
`embed` models `Embed` (an error or a vector). -/

/-- The service state relevant to ingestion: the retained chunk list
used by the lexical fallback, and the vector store. -/
structure SvcState where
  chunks : List Chunk
  store : MemStore

/-- The embed loop of `IngestDocuments` (lines 77–84): embed every
chunk text in order, stopping at the first error. -/
def embedAll (embed : String → Except String (List ℚ)) :
    List String → Except String (List (List ℚ))
  | [] => .ok []
  | t :: ts =>
    match embed t with
    | .error e => .error e
    | .ok v =>
      match embedAll embed ts with
      | .error e => .error e
      | .ok vs => .ok (v :: vs)

/-- `IngestDocuments` from the statement `s.chunks = allChunks`
(line 68) onward: retain the chunks, prepare the embedder on the chunk
texts, `Init` the store with the embedder dimension, embed every
chunk, then `Clear` and `Upsert`.  Each failing step returns the
state as mutated so far. -/
def ingestTail (prepare : List String → Except String ℤ)
    (embed : String → Except String (List ℚ))
    (s : SvcState) (allChunks : List Chunk) : SvcState × Option String :=
  let s1 : SvcState := { s with chunks := allChunks }
  match prepare (allChunks.map (fun c => c.text)) with
  | .error e => (s1, some e)
  | .ok dim =>
    match s1.store.Init dim with
    | (st2, some e) => ({ s1 with store := st2 }, some e)
    | (st2, none) =>
      let s2 : SvcState := { s1 with store := st2 }
      match embedAll embed (allChunks.map (fun c => c.text)) with
      | .error e => (s2, some e)
      | .ok vecs =>
        match s2.store.Clear with
        | (st3, some e) => ({ s2 with store := st3 }, some e)
        | (st3, none) =>
          let r := st3.Upsert allChunks vecs
          ({ s2 with store := r.1 }, r.2)

/-- C10 (amended): after the chunking step the retained chunk list has
always been replaced by the new chunks — so the lexical fallback ranks
over the chunks of the (possibly failed) ingestion — and a failure at
embedder preparation or at store initialization leaves the store
unchanged; but a failure while embedding a chunk does NOT leave the
store unchanged: `store.Init` has already run, so the store has been
reset to an empty store of the embedder's dimension. -/
theorem service_c10_ingest_frame (prepare : List String → Except String ℤ)
    (embed : String → Except String (List ℚ))
    (s : SvcState) (allChunks : List Chunk) :
    (∀ e, prepare (allChunks.map (fun c => c.text)) = .error e →
      ingestTail prepare embed s allChunks
        = ({ s with chunks := allChunks }, some e)) ∧
    (∀ dim, prepare (allChunks.map (fun c => c.text)) = .ok dim →
      dim ≤ 0 →
      ingestTail prepare embed s allChunks
        = ({ s with chunks := allChunks }, some "invalid dimension")) ∧
    (∀ dim e, prepare (allChunks.map (fun c => c.text)) = .ok dim →
      0 < dim →
      embedAll embed (allChunks.map (fun c => c.text)) = .error e →
      ingestTail prepare embed s allChunks
        = (SvcState.mk allChunks (MemStore.mk dim.toNat [] []), some e)) ∧
    ((ingestTail prepare embed s allChunks).1.chunks = allChunks) ∧
    (∀ p query topK,
      lexicalSearch p (ingestTail prepare embed s allChunks).1.chunks
          query topK
        = lexicalSearch p allChunks query topK) := by
  have hchunks : (ingestTail prepare embed s allChunks).1.chunks
      = allChunks := by
    cases hp : prepare (allChunks.map (fun c => c.text)) with
    | error e => simp [ingestTail, hp]
    | ok dim =>
      by_cases hd : dim ≤ 0
      · simp [ingestTail, hp, MemStore.Init, hd]
      · cases he : embedAll embed (allChunks.map (fun c => c.text)) with
        | error e => simp [ingestTail, hp, MemStore.Init, hd, he]
        | ok vecs =>
          simp [ingestTail, hp, MemStore.Init, hd, he, MemStore.Clear]
  refine ⟨?_, ?_, ?_, hchunks, ?_⟩
  · intro e he
    simp [ingestTail, he]
  · intro dim hp hd
    simp [ingestTail, hp, MemStore.Init, hd]
  · intro dim e hp hdim hemb
    simp [ingestTail, hp, MemStore.Init, not_le.mpr hdim, hemb]
  · intro p query topK
    rw [hchunks]

/-- Witness for C10 (amended) on a successful one-chunk ingestion:
the retained chunk list is the new chunk list. -/
theorem service_c10_ingest_frame_witness :
    (ingestTail (fun _ => Except.ok 1) (fun _ => Except.ok [(1 : ℚ)])
        (SvcState.mk [] (MemStore.mk 0 [] []))
        [Chunk.mk "d" "d:0" "t" 0]).1.chunks
      = [Chunk.mk "d" "d:0" "t" 0] :=
  (service_c10_ingest_frame (fun _ => Except.ok 1)
    (fun _ => Except.ok [(1 : ℚ)]) (SvcState.mk [] (MemStore.mk 0 [] []))
    [Chunk.mk "d" "d:0" "t" 0]).2.2.2.1

/-- C10 counterexample to the original claim's frame condition: the
store holds one vector, preparation succeeds with dimension 1, and
embedding the (single) new chunk fails.  `IngestDocuments` reports the
embed error, the retained chunk list is the new chunks — but the
store's contents are NOT unchanged: `store.Init` already emptied it. -/
theorem service_c10_ingest_counterexample :
    (ingestTail (fun _ => Except.ok 1) (fun _ => Except.error "boom")
        (SvcState.mk [Chunk.mk "d" "d:0" "old" 0]
          (MemStore.mk 1 [[(1 : ℚ)]] [Chunk.mk "d" "d:0" "old" 0]))
        [Chunk.mk "e" "e:0" "new" 0]).2 = some "boom" ∧
    (SvcState.mk [Chunk.mk "d" "d:0" "old" 0]
        (MemStore.mk 1 [[(1 : ℚ)]] [Chunk.mk "d" "d:0" "old" 0])).store.vectors
      ≠ [] ∧
    (ingestTail (fun _ => Except.ok 1) (fun _ => Except.error "boom")
        (SvcState.mk [Chunk.mk "d" "d:0" "old" 0]
          (MemStore.mk 1 [[(1 : ℚ)]] [Chunk.mk "d" "d:0" "old" 0]))
        [Chunk.mk "e" "e:0" "new" 0]).1.store.vectors = [] ∧
    (ingestTail (fun _ => Except.ok 1) (fun _ => Except.error "boom")
        (SvcState.mk [Chunk.mk "d" "d:0" "old" 0]
          (MemStore.mk 1 [[(1 : ℚ)]] [Chunk.mk "d" "d:0" "old" 0]))
        [Chunk.mk "e" "e:0" "new" 0]).1.chunks = [Chunk.mk "e" "e:0" "new" 0]
    := by
  refine ⟨rfl, ?_, rfl, rfl⟩
  simp

end RagSearch
